import Mathlib

/-!
Verification of the decision core of the Nuvama/Stockwatch live-news monitor
(`src/main.py`): timestamp normalization, the two text canonicalizers, the
two-layer deduplication (MD5 fingerprints and contextual similarity), the
entity watchlist filter, and the persisted-state pruning.

Strings are modelled as `List Char`.  Python's `re` character classes `\w`
and `\s` are modelled by the character predicates below (ASCII word
characters plus underscore, and the whitespace characters the program
actually manipulates, including the non-breaking space).  `str.lower` is
modelled characterwise on ASCII.  Each `re.sub` call of the source is
modelled by a left-to-right, non-overlapping scanner (`scanSub`) driven by a
matcher that mirrors the concrete regular expression, including its
word-boundary behaviour (the scanner threads whether the previous character
of the original string was a word character).
-/

namespace NewsMonitor

/-- Model of Python regex `\w` (ASCII fragment): letters, digits, underscore. -/
def isWordChar (c : Char) : Bool :=
  c.isAlphanum || c = '_'

/-- Model of Python regex `\s` / `str.split()` whitespace: the ASCII
whitespace characters plus the non-breaking space U+00A0 that
`canonicalize_for_context` explicitly handles. -/
def isSpaceChar (c : Char) : Bool :=
  c = ' ' || c = '\t' || c = '\n' || c = '\x0d' || c = '\x0b' || c = '\x0c' ||
  c = '\xa0'

/-- Model of `str.lower`, characterwise on ASCII. -/
def lowerChar (c : Char) : Char :=
  if c.isUpper then Char.ofNat (c.toNat + 32) else c

def lowerStr (l : List Char) : List Char := l.map lowerChar

/-- Python `str.strip()`: drop leading and trailing whitespace. -/
def stripWs (l : List Char) : List Char :=
  ((l.dropWhile isSpaceChar).reverse.dropWhile isSpaceChar).reverse

theorem dropWhile_len_le (p : Char → Bool) :
    ∀ l : List Char, (l.dropWhile p).length ≤ l.length := by
  intro l
  induction l with
  | nil => simp [List.dropWhile]
  | cons c cs ih => by_cases h : p c <;> simp [List.dropWhile, h] <;> omega

/-- Fuel-indexed body of `collapseWs` (structural recursion so that the
kernel can evaluate it; the fuel is the input length, which is always
sufficient because every step consumes at least one character). -/
def collapseWsF : Nat → List Char → List Char
  | 0, l => l
  | _ + 1, [] => []
  | fuel + 1, c :: cs =>
    if isSpaceChar c then ' ' :: collapseWsF fuel (cs.dropWhile isSpaceChar)
    else c :: collapseWsF fuel cs

/-- `re.sub(r'\s+', ' ', text)`: collapse every whitespace run to one space. -/
def collapseWs (l : List Char) : List Char := collapseWsF l.length l

/-- Fuel-indexed body of `splitWs`. -/
def splitWsF : Nat → List Char → List (List Char)
  | 0, _ => []
  | _ + 1, [] => []
  | fuel + 1, c :: cs =>
    if isSpaceChar c then splitWsF fuel cs
    else (c :: cs.takeWhile (fun x => !isSpaceChar x)) ::
      splitWsF fuel (cs.dropWhile (fun x => !isSpaceChar x))

/-- Python `str.split()`: maximal runs of non-whitespace characters. -/
def splitWs (l : List Char) : List (List Char) := splitWsF l.length l

/-- `' '.join(tokens)`. -/
def joinSpace : List (List Char) → List Char
  | [] => []
  | [t] => t
  | t :: ts => t ++ ' ' :: joinSpace ts

/-- A matcher consumes a match at the head of the remaining input; it receives
whether the previous character of the original string was a word character
(for `\b`), and returns the replacement text, the word-character status of the
last consumed character, and the remaining input after the match. -/
abbrev Matcher := Bool → List Char → Option (List Char × Bool × List Char)

/-- Fuel-indexed body of `scanSub`. -/
def scanSubF (f : Matcher) : Nat → Bool → List Char → List Char
  | 0, _, l => l
  | _ + 1, _, [] => []
  | fuel + 1, prev, c :: cs =>
    match f prev (c :: cs) with
    | some (repl, np, rest) => repl ++ scanSubF f fuel np rest
    | none => c :: scanSubF f fuel (isWordChar c) cs

/-- Model of `re.sub`: scan left to right, at each position try the matcher;
on a match emit the replacement and continue after the consumed text
(non-overlapping), otherwise copy one character.  The fuel equals the input
length, which suffices since every matcher of this file consumes at least
one character. -/
def scanSub (f : Matcher) (prev : Bool) (l : List Char) : List Char :=
  scanSubF f l.length prev l

/-- `some rest` when `pre` is a prefix of `l`, with `rest` what follows. -/
def dropPref : List Char → List Char → Option (List Char)
  | [], l => some l
  | _ :: _, [] => none
  | p :: ps, c :: cs => if c = p then dropPref ps cs else none

/-- At least one decimal digit followed by the remaining input (`\d+`). -/
def digits1 : List Char → Option (List Char)
  | [] => none
  | c :: cs => if c.isDigit then some (cs.dropWhile Char.isDigit) else none

/-- Matcher for `\([+-]?\d+\.\d+%\)` (the volatile stock-price figure). -/
def pctSign : List Char → List Char
  | c :: t => if c = '+' || c = '-' then t else c :: t
  | [] => []

def pctMatcher : Matcher := fun _ l =>
  match l with
  | '(' :: r1 =>
    match digits1 (pctSign r1) with
    | some r3 =>
      match r3 with
      | '.' :: r4 =>
        match digits1 r4 with
        | some r5 =>
          match r5 with
          | '%' :: ')' :: r6 => some ([], false, r6)
          | _ => none
        | none => none
      | _ => none
    | none => none
  | _ => none

/-- Matcher for `[<dashes>]\s*:\s*` with a given dash class and replacement. -/
def dashColonMatcher (dashes : List Char) (repl : List Char) : Matcher :=
  fun _ l =>
  match l with
  | d :: r1 =>
    if d ∈ dashes then
      match r1.dropWhile isSpaceChar with
      | ':' :: r3 => some (repl, false, r3.dropWhile isSpaceChar)
      | _ => none
    else none
  | [] => none

/-- Matcher for `\s*:\s*` (standalone colon, replaced by a space). -/
def colonMatcher : Matcher := fun _ l =>
  match l.dropWhile isSpaceChar with
  | ':' :: r3 => some ([' '], false, r3.dropWhile isSpaceChar)
  | _ => none

/-- Matcher for `(\d),(\d)` with replacement `\1\2`. -/
def commaMatcher : Matcher := fun _ l =>
  match l with
  | a :: ',' :: b :: rest =>
    if a.isDigit && b.isDigit then some ([a, b], true, rest) else none
  | _ => none

/-- `[]` or a head that is not a word character: a `\b` holds here. -/
def atBoundary : List Char → Bool
  | [] => true
  | c :: _ => !isWordChar c

/-- Matcher for `\b<stem>s?\b` (the `s?` only when `opt`), replaced by `repl`.
The previous-character flag models the leading `\b`. -/
def wordMatcher (stem : List Char) (opt : Bool) (repl : List Char) : Matcher :=
  fun prev l =>
  if prev then none
  else
    match dropPref stem l with
    | some r1 =>
      if opt then
        match r1 with
        | 's' :: r2 =>
          if atBoundary r2 then some (repl, true, r2)
          else if atBoundary r1 then some (repl, true, r1) else none
        | _ => if atBoundary r1 then some (repl, true, r1) else none
      else if atBoundary r1 then some (repl, true, r1) else none
    | none => none

/-- The dash class of `canonicalize_for_context`: `[-–—]`. -/
def dashSetCtx : List Char := ['-', Char.ofNat 0x2013, Char.ofNat 0x2014]

/-- The dash class of `normalize_headline_for_exact_dedup` as it appears
byte-for-byte in the source (a mojibake rendering of en/em dash):
`-`, U+00E2, U+20AC, U+201C, U+201D. -/
def dashSetCons : List Char :=
  ['-', Char.ofNat 0xE2, Char.ofNat 0x20AC, Char.ofNat 0x201C, Char.ofNat 0x201D]

def subPct : List Char → List Char := scanSub pctMatcher false
def subDashColonCtx : List Char → List Char :=
  scanSub (dashColonMatcher dashSetCtx [' ']) false
def subDashColonCons : List Char → List Char :=
  scanSub (dashColonMatcher dashSetCons [':', ' ']) false
def subColon : List Char → List Char := scanSub colonMatcher false
def subCommaDigit : List Char → List Char := scanSub commaMatcher false
def subTokenWord (stem : List Char) (opt : Bool) (repl : List Char) :
    List Char → List Char :=
  scanSub (wordMatcher stem opt repl) false

/-- `str.replace('\xa0', ' ')`. -/
def nbspToSpace (l : List Char) : List Char :=
  l.map (fun c => if c = '\xa0' then ' ' else c)

/-- `re.sub(r'[^\w\s]', ' ', text)`. -/
def mapNonWord (l : List Char) : List Char :=
  l.map (fun c => if isWordChar c || isSpaceChar c then c else ' ')

/-- `UNIT_CANON` from the source. -/
def unitCanon : List (List Char × List Char) :=
  [("cr".data, "crore".data), ("crs".data, "crore".data),
   ("crores".data, "crore".data),
   ("mn".data, "million".data), ("mln".data, "million".data),
   ("mil".data, "million".data),
   ("bn".data, "billion".data), ("bln".data, "billion".data),
   ("lk".data, "lakh".data), ("lks".data, "lakh".data),
   ("lakhs".data, "lakh".data), ("lac".data, "lakh".data),
   ("k".data, "thousand".data), ("tn".data, "trillion".data),
   ("rs".data, "rupees".data), ("inr".data, "rupees".data)]

/-- `VERB_CANON` from the source. -/
def verbCanon : List (List Char × List Char) :=
  [("secured".data, "wins".data), ("bagged".data, "wins".data),
   ("got".data, "wins".data), ("receives".data, "wins".data),
   ("awarded".data, "wins".data), ("clinches".data, "wins".data),
   ("grabs".data, "wins".data), ("obtains".data, "wins".data),
   ("rises".data, "increases".data), ("surges".data, "increases".data),
   ("jumps".data, "increases".data), ("soars".data, "increases".data),
   ("climbs".data, "increases".data), ("gains".data, "increases".data),
   ("falls".data, "decreases".data), ("drops".data, "decreases".data),
   ("declines".data, "decreases".data), ("dips".data, "decreases".data),
   ("slips".data, "decreases".data), ("tumbles".data, "decreases".data),
   ("plunges".data, "decreases".data), ("slumps".data, "decreases".data),
   ("acquires".data, "buys".data), ("purchases".data, "buys".data),
   ("launches".data, "introduces".data), ("unveils".data, "introduces".data),
   ("rolls out".data, "introduces".data),
   ("appoints".data, "names".data), ("designates".data, "names".data),
   ("elevates".data, "names".data)]

def assocFind : List (List Char × List Char) → List Char → Option (List Char)
  | [], _ => none
  | (k, v) :: rest, w => if w = k then some v else assocFind rest w

/-- The per-token canonicalization of financial units and verbs
(`if w in UNIT_CANON ... elif w in VERB_CANON ...`). -/
def canonWord (w : List Char) : List Char :=
  match assocFind unitCanon w with
  | some v => v
  | none =>
    match assocFind verbCanon w with
    | some v => v
    | none => w

/-- `canonicalize_for_context` from the source, stage for stage. -/
def canonicalize_for_context (s : List Char) : List Char :=
  let t0 := stripWs (lowerStr s)
  let t1 := subPct t0
  let t2 := subDashColonCtx t1
  let t3 := subColon t2
  let t4 := nbspToSpace t3
  let t5 := subCommaDigit (subCommaDigit t4)
  let t6 := mapNonWord t5
  let t7 := subTokenWord "ltd".data false [] t6
  let t8 := subTokenWord "limited".data false [] t7
  let t9 := subTokenWord "crore".data true "crore".data t8
  let t10 := subTokenWord "ncd".data true "ncd".data t9
  let t11 := subTokenWord "share".data true "share".data t10
  let t12 := subTokenWord "order".data true "order".data t11
  let t13 := subTokenWord "runit".data true "unit".data t12
  let t14 := joinSpace ((splitWs t13).map canonWord)
  stripWs (collapseWs t14)

/-- `normalize_headline_for_exact_dedup` from the source: strip the volatile
percentage figure, collapse the dash-colon placeholder to `: `, collapse
whitespace, lowercase. -/
def normalize_headline_for_exact_dedup (s : List Char) : List Char :=
  let t1 := subPct s
  let t2 := subDashColonCons t1
  let t3 := stripWs (collapseWs t2)
  lowerStr t3

/-! ### Layer B: contextual similarity (`contextual_similarity_score` etc.)

Python floats are modelled as exact rationals; `difflib.SequenceMatcher`
(over characters, `isjunk = None`) is modelled faithfully, including the
autojunk popularity heuristic and the match-extension phase. -/

/-- `STOP_WORDS` from the source. -/
def stopWords : List (List Char) :=
  ["a", "an", "the", "in", "on", "at", "to", "for", "of", "by", "from",
   "with", "as", "is", "was", "are", "were", "be", "been", "being",
   "and", "or", "not", "it", "its", "this", "that", "has", "have", "had",
   "will", "would", "can", "could", "should", "may", "might", "shall",
   "do", "does", "did", "but", "if", "so", "no", "up", "out", "into",
   "than", "then", "also", "about", "after", "before", "between",
   "through", "during", "above", "below", "over", "under", "per", "via",
   "vs", "all", "each", "every", "both", "more", "most", "other",
   "some", "such", "only", "own", "same", "very", "just",
   "s", "us"].map String.data

def natOfDigits (l : List Char) : Nat :=
  l.foldl (fun n c => 10 * n + (c.toNat - 48)) 0

/-- Fuel-indexed body of `numberScan`. -/
def numberScanF : Nat → List Char → List ℚ
  | 0, _ => []
  | _ + 1, [] => []
  | fuel + 1, c :: cs =>
    if c.isDigit then
      let intVal : ℚ := (natOfDigits (c :: cs.takeWhile Char.isDigit) : ℚ)
      match cs.dropWhile Char.isDigit with
      | '.' :: r2 =>
        if (r2.headD ' ').isDigit then
          let fs := r2.takeWhile Char.isDigit
          (intVal + (natOfDigits fs : ℚ) / (10 : ℚ) ^ fs.length) ::
            numberScanF fuel (r2.dropWhile Char.isDigit)
        else intVal :: numberScanF fuel ('.' :: r2)
      | r => intVal :: numberScanF fuel r
    else numberScanF fuel cs

/-- Scan for `(\d+(?:\.\d+)?)` matches, left to right, non-overlapping,
returning the values as rationals (model of `float(match)`). -/
def numberScan (l : List Char) : List ℚ := numberScanF l.length l

/-- `extract_numbers` from the source: collapse digit-grouping commas twice,
scan numeric literals, keep the positive ones, as a set. -/
def extract_numbers (text : List Char) : Finset ℚ :=
  ((numberScan (subCommaDigit (subCommaDigit text))).filter (fun v => 0 < v)).toFinset

/-- Positions (ascending) of a character in `b`, as `SequenceMatcher.__chain_b`
stores them. -/
def positionsOf (b : List Char) (c : Char) : List Nat :=
  (List.range b.length).filter (fun j => b.getD j (Char.ofNat 0) = c)

/-- `b2j` with the autojunk heuristic: when `len(b) >= 200`, characters
occurring more than `len(b) // 100 + 1` times are dropped from the index. -/
def b2j (b : List Char) (c : Char) : List Nat :=
  let idxs := positionsOf b c
  if b.length ≥ 200 ∧ idxs.length > b.length / 100 + 1 then [] else idxs

/-- One row of the `find_longest_match` dynamic program: fold over the
positions of `a[i]` in `b` (already restricted to `[blo, bhi)`), updating the
best block and building the new `j2len` row. -/
def flmRow (j2len : Nat → Nat) (i : Nat) (js : List Nat)
    (best : Nat × Nat × Nat) : (Nat × Nat × Nat) × (Nat → Nat) :=
  js.foldl
    (fun acc j =>
      let k := (if j = 0 then 0 else j2len (j - 1)) + 1
      let nj : Nat → Nat := fun x => if x = j then k else acc.2 x
      let b2 := if k > acc.1.2.2 then (i + 1 - k, j + 1 - k, k) else acc.1
      (b2, nj))
    (best, fun _ => 0)

/-- The `while besti > alo and bestj > blo and a[besti-1] == b[bestj-1]`
extension of `find_longest_match` (the junk-adjacent phases are vacuous for
`isjunk = None`); structural recursion on `i`. -/
def extLeft (a b : List Char) (alo blo : Nat) : Nat → Nat → Nat → Nat × Nat × Nat
  | 0, j, k => (0, j, k)
  | i + 1, j, k =>
    if alo < i + 1 ∧ blo < j ∧
        a.getD i (Char.ofNat 0) = b.getD (j - 1) (Char.ofNat 0) then
      extLeft a b alo blo i (j - 1) (k + 1)
    else (i + 1, j, k)

/-- Fuel-indexed body of `extRight` (the fuel bounds the remaining width of
the `a` window). -/
def extRightF (a b : List Char) (ahi bhi : Nat) (i j : Nat) : Nat → Nat → Nat
  | 0, k => k
  | fuel + 1, k =>
    if i + k < ahi ∧ j + k < bhi ∧
        a.getD (i + k) (Char.ofNat 0) = b.getD (j + k) (Char.ofNat 0) then
      extRightF a b ahi bhi i j fuel (k + 1)
    else k

def extRight (a b : List Char) (ahi bhi : Nat) (i j k : Nat) : Nat :=
  extRightF a b ahi bhi i j (ahi + 1) k

/-- `SequenceMatcher.find_longest_match` on character lists. -/
def find_longest_match (a b : List Char) (alo ahi blo bhi : Nat) :
    Nat × Nat × Nat :=
  let dp := (List.range' alo (ahi - alo)).foldl
    (fun (acc : (Nat × Nat × Nat) × (Nat → Nat)) i =>
      let js := (b2j b (a.getD i (Char.ofNat 0))).filter
        (fun j => blo ≤ j && j < bhi)
      flmRow acc.2 i js acc.1)
    ((alo, blo, 0), fun _ => 0)
  let (i, j, k) := extLeft a b alo blo dp.1.1 dp.1.2.1 dp.1.2.2
  (i, j, extRight a b ahi bhi i j k)

/-- Total size of all matching blocks (the recursion of
`get_matching_blocks`); the fuel is an upper bound on the recursion depth,
which is at most `|a| + |b|` since every recursive window is strictly
smaller. -/
def matchTotal (a b : List Char) : Nat → Nat → Nat → Nat → Nat → Nat
  | 0, _, _, _, _ => 0
  | fuel + 1, alo, ahi, blo, bhi =>
    let r := find_longest_match a b alo ahi blo bhi
    let i := r.1
    let j := r.2.1
    let k := r.2.2
    if k = 0 then 0
    else
      k + (if alo < i ∧ blo < j then matchTotal a b fuel alo i blo j else 0)
        + (if i + k < ahi ∧ j + k < bhi then
            matchTotal a b fuel (i + k) ahi (j + k) bhi else 0)

/-- `SequenceMatcher(None, a, b).ratio()`: `2 * M / (len(a) + len(b))`,
`1` when both strings are empty. -/
def seqRatio (a b : List Char) : ℚ :=
  if a.length + b.length = 0 then 1
  else
    2 * (matchTotal a b (a.length + b.length + 1) 0 a.length 0 b.length : ℚ) /
      ((a.length + b.length : Nat) : ℚ)

def hasPref : List Char → List Char → Bool
  | [], _ => true
  | _ :: _, [] => false
  | p :: ps, c :: cs => p = c && hasPref ps cs

/-- Python substring containment `needle in hay`. -/
def hasSub (needle : List Char) : List Char → Bool
  | [] => hasPref needle []
  | c :: cs => hasPref needle (c :: cs) || hasSub needle cs

/-- Fuel-indexed body of `wordTokens`. -/
def wordTokensF : Nat → List Char → List (List Char)
  | 0, _ => []
  | _ + 1, [] => []
  | fuel + 1, c :: cs =>
    if isWordChar c then
      (c :: cs.takeWhile isWordChar) :: wordTokensF fuel (cs.dropWhile isWordChar)
    else wordTokensF fuel cs

/-- `re.findall(r'\b\w+\b', text)`: the maximal word-character runs. -/
def wordTokens (l : List Char) : List (List Char) := wordTokensF l.length l

/-- The set of canonical company names whose alias matches the text:
substring matching for multi-word aliases, whole-token matching for
single-word ones; aliases shorter than 3 characters are skipped. -/
def companiesStep (lowered : List Char) (toks : Finset (List Char))
    (acc : Finset (List Char)) (p : List Char × List Char) :
    Finset (List Char) :=
  if p.1.length < 3 then acc
  else if ' ' ∈ p.1 then
    if hasSub p.1 lowered then insert (lowerStr p.2) acc else acc
  else if p.1 ∈ toks then insert (lowerStr p.2) acc else acc

def companiesIn (aliases : List (List Char × List Char)) (text : List Char) :
    Finset (List Char) :=
  let lowered := lowerStr text
  aliases.foldl (companiesStep lowered (wordTokens lowered).toFinset) ∅

/-- `company_alias_overlap` from the source: containment of the smaller
matched-company set in the larger; `0` when either side matched nothing. -/
def company_alias_overlap (aliases : List (List Char × List Char))
    (textA textB : List Char) : ℚ :=
  let ca := companiesIn aliases textA
  let cb := companiesIn aliases textB
  if ca = ∅ ∨ cb = ∅ then 0
  else ((ca ∩ cb).card : ℚ) / (min ca.card cb.card : ℚ)

/-- The content-word set: split the canonical form, drop stop words and
tokens of length at most 2. -/
def contentSet (canon : List Char) : Finset (List Char) :=
  ((splitWs canon).filter (fun w => w ∉ stopWords && w.length > 2)).toFinset

/-- Signal 1: sequence ratio of the aggressive canonical forms. -/
def seqPart (ha hb : List Char) : ℚ :=
  seqRatio (canonicalize_for_context ha) (canonicalize_for_context hb)

/-- Signal 2: content-word Jaccard of the aggressive canonical forms. -/
def jacPart (ha hb : List Char) : ℚ :=
  if contentSet (canonicalize_for_context ha) ≠ ∅ ∧
      contentSet (canonicalize_for_context hb) ≠ ∅ then
    ((contentSet (canonicalize_for_context ha) ∩
        contentSet (canonicalize_for_context hb)).card : ℚ) /
      ((contentSet (canonicalize_for_context ha) ∪
        contentSet (canonicalize_for_context hb)).card : ℚ)
  else 0

/-- Signal 3: content-word containment (fraction of the smaller content set
shared). -/
def contPart (ha hb : List Char) : ℚ :=
  if contentSet (canonicalize_for_context ha) ≠ ∅ ∧
      contentSet (canonicalize_for_context hb) ≠ ∅ then
    ((contentSet (canonicalize_for_context ha) ∩
        contentSet (canonicalize_for_context hb)).card : ℚ) /
      (min (contentSet (canonicalize_for_context ha)).card
        (contentSet (canonicalize_for_context hb)).card : ℚ)
  else 0

/-- Signal 4: numeric overlap of the aggressive canonical forms, neutral
`0.5` when neither side has numbers. -/
def numPart (ha hb : List Char) : ℚ :=
  if extract_numbers (canonicalize_for_context ha) ≠ ∅ ∨
      extract_numbers (canonicalize_for_context hb) ≠ ∅ then
    ((extract_numbers (canonicalize_for_context ha) ∩
        extract_numbers (canonicalize_for_context hb)).card : ℚ) /
      ((extract_numbers (canonicalize_for_context ha) ∪
        extract_numbers (canonicalize_for_context hb)).card : ℚ)
  else 1 / 2

/-- The weighted sum of the five signals (embedding signal disabled, the
default configuration). -/
def scoreBase (aliases : List (List Char × List Char)) (ha hb : List Char) :
    ℚ :=
  (2 / 10) * seqPart ha hb + (2 / 10) * jacPart ha hb +
    (2 / 10) * contPart ha hb + (15 / 100) * numPart ha hb +
    (25 / 100) * company_alias_overlap aliases ha hb

/-- `contextual_similarity_score` from the source, with the optional
embedding signal disabled (the default configuration): weighted sum of the
five signals, plus the same-company bonus of `0.08` when the alias-overlap
signal reaches `0.5`, clipped at `1`. -/
def contextual_similarity_score (aliases : List (List Char × List Char))
    (ha hb : List Char) : ℚ :=
  min
    (if company_alias_overlap aliases ha hb ≥ 1 / 2 then
      scoreBase aliases ha hb + 8 / 100
    else scoreBase aliases ha hb)
    1

/-- The fields of a context-memory entry that `is_context_duplicate` reads. -/
structure CtxEntry where
  headline : List Char
  source : List Char
deriving DecidableEq, Repr

/-- The body of the `is_context_duplicate` loop: skip same-source entries
(both sources non-empty), otherwise score and keep the strictly better
match. -/
def ctxStep (aliases : List (List Char × List Char))
    (headline source : List Char) (acc : ℚ × List Char) (e : CtxEntry) :
    ℚ × List Char :=
  if source ≠ [] ∧ e.source ≠ [] ∧ e.source = source then acc
  else
    let s := contextual_similarity_score aliases headline e.headline
    if acc.1 < s then (s, e.headline) else acc

/-- `is_context_duplicate` from the source: best score over memory entries,
skipping entries whose (non-empty) source equals the record's (non-empty)
source; duplicate when the best score reaches the threshold. -/
def is_context_duplicate (aliases : List (List Char × List Char)) (thr : ℚ)
    (headline : List Char) (memory : List CtxEntry) (source : List Char) :
    Bool × ℚ × List Char :=
  if memory = [] then (false, 0, [])
  else
    let best := memory.foldl (ctxStep aliases headline source) (0, [])
    (decide (thr ≤ best.1), best.1, best.2)

/-! ### Entity filter (`_strip_suffixes`, `_normalize_company`,
`is_nifty500_match`) -/

/-- Python `str.endswith`. -/
def endsWith (suf l : List Char) : Bool := hasPref suf.reverse l.reverse

/-- `_strip_suffixes` from the source: lowercase, strip, then peel each of
the listed suffixes in order (re-stripping after each removal). -/
def strip_suffixes (name : List Char) : List Char :=
  [" ltd.", " ltd", " limited", " co.", " corp.", " inc."].foldl
    (fun l s =>
      let sd := s.data
      if endsWith sd l then stripWs (l.take (l.length - sd.length)) else l)
    (stripWs (lowerStr name))

/-- `_normalize_company` from the source: suffix-strip, drop dots and
apostrophes, expand ampersands, collapse whitespace. -/
def normalize_company (name : List Char) : List Char :=
  let l0 := lowerStr (strip_suffixes name)
  let l1 := (l0.filter (fun c => c ≠ '.' && c ≠ '\'')).flatMap
    (fun c => if c = '&' then (" and ".data) else [c])
  stripWs (collapseWs l1)

/-- `is_nifty500_match` from the source.  `companies` is the loaded
watchlist identifier set; the `headline_text` argument is accepted but,
as in the source, never used. -/
def is_nifty500_match (companies : List (List Char))
    (company_name headline_text : List Char) : Bool :=
  if companies = [] then true
  else if company_name ≠ [] then
    let normalized := normalize_company company_name
    if normalized ∈ companies then true
    else if normalized.filter (fun c => c ≠ ' ') ∈ companies then true
    else false
  else false

/-! ### Timestamp normalizer (`parse_timestamp_to_datetime`)

Python timezone-aware IST datetimes are modelled at minute resolution by
their calendar components; comparison and timedelta arithmetic go through
minutes-since-the-civil-epoch (all datetimes the program builds carry the
fixed IST offset, so instant comparison coincides with component
comparison). -/

structure DateTime where
  year : Nat
  month : Nat
  day : Nat
  hour : Nat
  minute : Nat
deriving DecidableEq, Repr

/-- Days from 0000-03-01 of a civil date (Hinnant's algorithm, restricted to
nonnegative years). -/
def daysFromCivil (y m d : Nat) : Nat :=
  let yp := y - (if m ≤ 2 then 1 else 0)
  let era := yp / 400
  let yoe := yp % 400
  let mp := if m > 2 then m - 3 else m + 9
  let doy := (153 * mp + 2) / 5 + (d - 1)
  let doe := yoe * 365 + yoe / 4 - yoe / 100 + doy
  era * 146097 + doe

/-- Inverse of `daysFromCivil`. -/
def civilFromDays (z : Nat) : Nat × Nat × Nat :=
  let era := z / 146097
  let doe := z % 146097
  let yoe := (doe - doe / 1460 + doe / 36524 - doe / 146096) / 365
  let y := yoe + era * 400
  let doy := doe - (365 * yoe + yoe / 4 - yoe / 100)
  let mp := (5 * doy + 2) / 153
  let d := doy - (153 * mp + 2) / 5 + 1
  let m := if mp < 10 then mp + 3 else mp - 9
  (y + (if m ≤ 2 then 1 else 0), m, d)

def toMinutes (t : DateTime) : Nat :=
  daysFromCivil t.year t.month t.day * 1440 + t.hour * 60 + t.minute

def fromMinutes (n : Nat) : DateTime :=
  let c := civilFromDays (n / 1440)
  ⟨c.1, c.2.1, c.2.2, n % 1440 / 60, n % 60⟩

/-- `datetime_obj <= last_check` on IST-aware datetimes. -/
def dtLe (a b : DateTime) : Bool := toMinutes a ≤ toMinutes b

def isLeap (y : Nat) : Bool := y % 4 = 0 && (y % 100 ≠ 0 || y % 400 = 0)

def daysInMonth (y m : Nat) : Nat :=
  if m = 2 then (if isLeap y then 29 else 28)
  else if m = 4 ∨ m = 6 ∨ m = 9 ∨ m = 11 then 30
  else 31

/-- Case-insensitive literal prefix (the pattern is given lowercased). -/
def dropPrefCI : List Char → List Char → Option (List Char)
  | [], l => some l
  | _ :: _, [] => none
  | p :: ps, c :: cs => if lowerChar c = p then dropPrefCI ps cs else none

/-- `^Just\s+Now$` (ignorecase). -/
def isJustNow (s : List Char) : Bool :=
  match dropPrefCI "just".data s with
  | some r1 =>
    if r1.takeWhile isSpaceChar = [] then false
    else
      match dropPrefCI "now".data (r1.dropWhile isSpaceChar) with
      | some [] => true
      | _ => false
  | none => false

/-- `^(\d+)\s+(min|mins|hour|hours)\s+ago$`; returns the amount and whether
the unit is minutes.  The unit alternatives are tried in the order of the
regex alternation. -/
def relativeMatch (s : List Char) : Option (Nat × Bool) :=
  let ds := s.takeWhile Char.isDigit
  if ds = [] then none
  else
    let r1 := s.dropWhile Char.isDigit
    if r1.takeWhile isSpaceChar = [] then none
    else
      let r2 := r1.dropWhile isSpaceChar
      let tryUnit : List Char → Bool → Option (Nat × Bool) := fun u inM =>
        match dropPref u r2 with
        | some r3 =>
          if r3.takeWhile isSpaceChar = [] then none
          else
            match dropPref "ago".data (r3.dropWhile isSpaceChar) with
            | some [] => some (natOfDigits ds, inM)
            | _ => none
        | none => none
      tryUnit "min".data true <|> tryUnit "mins".data true <|>
        tryUnit "hour".data false <|> tryUnit "hours".data false

/-- Candidate parses of strptime `%d` (`3[01]|[12]\d|0[1-9]|[1-9]`), in
alternation order; the caller tries each against the rest of the format,
which models the regex backtracking. -/
def dayCands : List Char → List (Nat × List Char)
  | l =>
    (match l with
     | '3' :: c :: r => if c = '0' ∨ c = '1' then [(30 + (c.toNat - 48), r)] else []
     | _ => []) ++
    (match l with
     | c :: d :: r =>
       if (c = '1' ∨ c = '2') ∧ d.isDigit then
         [((c.toNat - 48) * 10 + (d.toNat - 48), r)]
       else []
     | _ => []) ++
    (match l with
     | '0' :: c :: r => if c.isDigit ∧ c ≠ '0' then [(c.toNat - 48, r)] else []
     | _ => []) ++
    (match l with
     | c :: r => if c.isDigit ∧ c ≠ '0' then [(c.toNat - 48, r)] else []
     | _ => [])

/-- Candidate parses of strptime `%I` (`1[0-2]|0[1-9]|[1-9]`). -/
def hourCands : List Char → List (Nat × List Char)
  | l =>
    (match l with
     | '1' :: c :: r =>
       if c = '0' ∨ c = '1' ∨ c = '2' then [(10 + (c.toNat - 48), r)] else []
     | _ => []) ++
    (match l with
     | '0' :: c :: r => if c.isDigit ∧ c ≠ '0' then [(c.toNat - 48, r)] else []
     | _ => []) ++
    (match l with
     | c :: r => if c.isDigit ∧ c ≠ '0' then [(c.toNat - 48, r)] else []
     | _ => [])

/-- Candidate parses of strptime `%m` (`1[0-2]|0[1-9]|[1-9]`). -/
def monthNumCands : List Char → List (Nat × List Char) := hourCands

/-- Candidate parses of strptime `%M` (`[0-5]\d|\d`). -/
def minuteCands : List Char → List (Nat × List Char)
  | l =>
    (match l with
     | c :: d :: r =>
       if c.isDigit ∧ c.toNat - 48 ≤ 5 ∧ d.isDigit then
         [((c.toNat - 48) * 10 + (d.toNat - 48), r)]
       else []
     | _ => []) ++
    (match l with
     | c :: r => if c.isDigit then [(c.toNat - 48, r)] else []
     | _ => [])

def firstThat (cands : List (Nat × List Char))
    (cont : Nat → List Char → Option α) : Option α :=
  match cands with
  | [] => none
  | (v, r) :: rest =>
    match cont v r with
    | some x => some x
    | none => firstThat rest cont

/-- strptime `%b`: the lowercase month abbreviations (matched
case-insensitively). -/
def monthAbbrev (l : List Char) : Option (Nat × List Char) :=
  [(1, "jan"), (2, "feb"), (3, "mar"), (4, "apr"), (5, "may"), (6, "jun"),
   (7, "jul"), (8, "aug"), (9, "sep"), (10, "oct"), (11, "nov"),
   (12, "dec")].findSome?
    (fun p =>
      match dropPrefCI p.2.data l with
      | some r => some (p.1, r)
      | none => none)

/-- `%I` hour plus `%p` to a 24-hour value, as `_strptime` converts it. -/
def to24h (h : Nat) (pm : Bool) : Nat :=
  if pm then (if h = 12 then 12 else h + 12)
  else (if h = 12 then 0 else h)

/-- strptime `%p` (am|pm, ignorecase). -/
def ampmCand (l : List Char) : Option (Bool × List Char) :=
  match dropPrefCI "am".data l with
  | some r => some (false, r)
  | none =>
    match dropPrefCI "pm".data l with
    | some r => some (true, r)
    | none => none

/-- `datetime.strptime(s, '%d %b %I:%M %p')`, at minute resolution and with
the implicit year-1900 calendar-validity check; returns
(month, day, hour24, minute). -/
def strptimeDayMonTime (s : List Char) : Option (Nat × Nat × Nat × Nat) :=
  firstThat (dayCands s) fun d r1 =>
    if r1.takeWhile isSpaceChar = [] then none
    else
      match monthAbbrev (r1.dropWhile isSpaceChar) with
      | none => none
      | some (mo, r2) =>
        if r2.takeWhile isSpaceChar = [] then none
        else
          firstThat (hourCands (r2.dropWhile isSpaceChar)) fun h r3 =>
            match r3 with
            | ':' :: r4 =>
              firstThat (minuteCands r4) fun mi r5 =>
                if r5.takeWhile isSpaceChar = [] then none
                else
                  match ampmCand (r5.dropWhile isSpaceChar) with
                  | some (pm, []) =>
                    if 1 ≤ d ∧ d ≤ daysInMonth 1900 mo then
                      some (mo, d, to24h h pm, mi)
                    else none
                  | _ => none
            | _ => none

/-- `datetime.strptime(s, '%d-%m-%Y %I:%M %p')`, at minute resolution, with
the calendar-validity check of the datetime constructor. -/
def strptimeDMY (s : List Char) : Option DateTime :=
  firstThat (dayCands s) fun d r1 =>
    match r1 with
    | '-' :: r2 =>
      firstThat (monthNumCands r2) fun mo r3 =>
        match r3 with
        | '-' :: y1 :: y2 :: y3 :: y4 :: r4 =>
          if y1.isDigit ∧ y2.isDigit ∧ y3.isDigit ∧ y4.isDigit then
            let y := natOfDigits [y1, y2, y3, y4]
            if r4.takeWhile isSpaceChar = [] then none
            else
              firstThat (hourCands (r4.dropWhile isSpaceChar)) fun h r5 =>
                match r5 with
                | ':' :: r6 =>
                  firstThat (minuteCands r6) fun mi r7 =>
                    if r7.takeWhile isSpaceChar = [] then none
                    else
                      match ampmCand (r7.dropWhile isSpaceChar) with
                      | some (pm, []) =>
                        if 1 ≤ y ∧ 1 ≤ d ∧ d ≤ daysInMonth y mo then
                          some ⟨y, mo, d, to24h h pm, mi⟩
                        else none
                      | _ => none
                | _ => none
          else none
        | _ => none
    | _ => none

/-- The Stockwatch composite regex
`(\d+)m\s+ago\s*\|\s*(\d{1,2}:\d{2}\s*[AP]M)\s+(\d{2}-\d{2}-\d{4})`,
anchored at the start only; returns the time group (stripped) and the date
group. -/
def stockwatchMatch (s : List Char) : Option (List Char × List Char) :=
  let ds := s.takeWhile Char.isDigit
  if ds = [] then none
  else
    match s.dropWhile Char.isDigit with
    | 'm' :: r1 =>
      if r1.takeWhile isSpaceChar = [] then none
      else
        match dropPref "ago".data (r1.dropWhile isSpaceChar) with
        | some r2 =>
          match r2.dropWhile isSpaceChar with
          | '|' :: r3 =>
            let r4 := r3.dropWhile isSpaceChar
            -- group 2: \d{1,2}:\d{2}\s*[AP]M
            let hd := r4.takeWhile Char.isDigit
            if hd = [] ∨ hd.length > 2 then none
            else
              match r4.dropWhile Char.isDigit with
              | ':' :: m1 :: m2 :: r5 =>
                if m1.isDigit ∧ m2.isDigit then
                  let sp := r5.takeWhile isSpaceChar
                  match r5.dropWhile isSpaceChar with
                  | ap :: 'M' :: r6 =>
                    if ap = 'A' ∨ ap = 'P' then
                      -- group 2 matched text, then \s+ then group 3
                      let g2 := hd ++ [':', m1, m2] ++ sp ++ [ap, 'M']
                      if r6.takeWhile isSpaceChar = [] then none
                      else
                        match r6.dropWhile isSpaceChar with
                        | d1 :: d2 :: '-' :: d3 :: d4 :: '-' :: d5 :: d6 :: d7 :: d8 :: _ =>
                          if [d1, d2, d3, d4, d5, d6, d7, d8].all Char.isDigit then
                            some (stripWs g2,
                              [d1, d2, '-', d3, d4, '-', d5, d6, d7, d8])
                          else none
                        | _ => none
                    else none
                  | _ => none
                else none
              | _ => none
          | _ => none
        | none => none
    | _ => none

/-- `parse_timestamp_to_datetime` from the source: strip, then try in order
the `Just Now` marker, the relative `<N> min(s)/hour(s) ago` form, the
absolute `%d %b %I:%M %p` form (year taken from `now`), and the Stockwatch
composite form (absolute component parsed, relative prefix ignored);
`none` when nothing matches. -/
def parse_timestamp_to_datetime (raw : List Char) (now : DateTime) :
    Option DateTime :=
  let s := stripWs raw
  if isJustNow s then some now
  else
    match relativeMatch s with
    | some (n, inMinutes) =>
      some (fromMinutes (toMinutes now - (if inMinutes then n else n * 60)))
    | none =>
      match strptimeDayMonTime s with
      | some (mo, d, h, mi) => some ⟨now.year, mo, d, h, mi⟩
      | none =>
        match stockwatchMatch s with
        | some (timePart, datePart) =>
          match strptimeDMY (datePart ++ [' '] ++ timePart) with
          | some dt => some dt
          | none => none
        | none => none

/-! ### Results/earnings filter (`is_results_headline`) -/

/-- `re.search(r'\bq[1-4]\b', text)`. -/
def q14Search : Bool → List Char → Bool
  | _, [] => false
  | prev, c :: cs =>
    (if ¬prev ∧ c = 'q' then
      match cs with
      | d :: r => (d = '1' ∨ d = '2' ∨ d = '3' ∨ d = '4') ∧ atBoundary r
      | [] => False
     else False : Bool) || q14Search (isWordChar c) cs

def earningsKeywords : List (List Char) :=
  ["net profit", "net loss", "revenue", "ebitda", "ebitda margin",
   "rupees vs", "rupees vs.", "yoy", "qoq", "est ",
   "margin", "topline", "bottomline", "bottom line", "top line",
   "profit after tax", "pat ", "sales "].map String.data

/-- Find the first word-bounded occurrence of `phrase`, returning the text
after it. -/
def wbFindGo (phrase : List Char) : Bool → List Char → Option (List Char)
  | _, [] => none
  | prev, c :: cs =>
    if ¬prev then
      match dropPref phrase (c :: cs) with
      | some r => if atBoundary r then some r else wbFindGo phrase (isWordChar c) cs
      | none => wbFindGo phrase (isWordChar c) cs
    else wbFindGo phrase (isWordChar c) cs

/-- `\bp1\b.*\bp2\b...` searched left to right. -/
def chainSearch : Bool → List (List Char) → List Char → Bool
  | _, [], _ => true
  | prev, p :: ps, text =>
    match wbFindGo p prev text with
    | some rest => chainSearch true ps rest
    | none => false

def resultsPatterns : List (List (List Char)) :=
  [["net profit", "rupees"], ["net loss", "rupees"],
   ["revenue", "rupees", "yoy"], ["ebitda", "rupees", "yoy"],
   ["sl net profit"], ["cons net profit"],
   ["sl net loss"], ["cons net loss"]].map (fun l => l.map String.data)

/-- `is_results_headline` from the source. -/
def is_results_headline (headline category : List Char) : Bool :=
  let cat := lowerStr (stripWs category)
  if cat = "result".data ∨ cat = "results".data ∨ cat = "earning".data ∨
      cat = "earnings".data then true
  else
    let tl := lowerStr headline
    if q14Search false tl && earningsKeywords.any (fun kw => hasSub kw tl) then
      true
    else resultsPatterns.any (fun ps => chainSearch false ps tl)

/-! ### State store and orchestrator step -/

/-- A persisted context-memory entry as `save_context_memory` sees it:
`acceptedAt` is the parse of its `timestamp` field (`none` when
`datetime.fromisoformat` would fail). -/
structure MemEntry where
  raw : List Char
  acceptedAt : Option DateTime
deriving DecidableEq, Repr

/-- The pruning `save_context_memory` applies before writing: drop entries
accepted at or before `now - 24h` (entries with unparseable timestamps are
kept by the `except` branch), then keep the most recent 200 entries. -/
def save_context_memory_prune (now : DateTime) (mem : List MemEntry) :
    List MemEntry :=
  let cutoff := toMinutes now - 1440
  let pruned := mem.filter (fun e =>
    match e.acceptedAt with
    | some t => decide (cutoff < toMinutes t)
    | none => true)
  pruned.drop (pruned.length - 200)

/-- The per-record inputs of the `check_and_notify` loop. -/
structure RecordIn where
  headline : List Char
  datetime : Option DateTime
  category : List Char
  source : List Char
  company : List Char

/-- The state the loop threads: fingerprint set (MD5 digests modelled by the
normalized text they digest), context memory, and the loaded last-check
timestamp. -/
structure MonState where
  seen : List (List Char)
  memory : List CtxEntry
  lastCheck : Option DateTime

structure StepResult where
  alerted : Bool
  archived : Bool
  state : MonState

/-- One iteration of the `check_and_notify` record loop: Layer A exact
dedup (with immediate fingerprint insertion), Stockwatch entity filter,
recency filter against the last check (archive but do not alert),
results filter, Layer B contextual dedup, then alert (the delivered
headline enters context memory only when the Telegram call succeeds). -/
def processRecord (companies : List (List Char))
    (aliases : List (List Char × List Char)) (thr : ℚ)
    (excludeResults telegramOk : Bool) (st : MonState) (r : RecordIn) :
    StepResult :=
  let fp := normalize_headline_for_exact_dedup r.headline
  if fp ∈ st.seen then ⟨false, false, st⟩
  else
    let st1 : MonState := { st with seen := fp :: st.seen }
    if r.source = "STOCKWATCH".data ∧ companies ≠ [] ∧
        ¬ is_nifty500_match companies r.company r.headline then
      ⟨false, false, st1⟩
    else
      let shouldSend : Bool :=
        match st.lastCheck, r.datetime with
        | some t0, some dt => !dtLe dt t0
        | _, _ => true
      if !shouldSend then ⟨false, true, st1⟩
      else if excludeResults && is_results_headline r.headline r.category then
        ⟨false, true, st1⟩
      else if (is_context_duplicate aliases thr r.headline st1.memory
          r.source).1 then
        ⟨false, true, st1⟩
      else if telegramOk then
        ⟨true, true,
          { st1 with memory := st1.memory ++ [⟨r.headline, r.source⟩] }⟩
      else ⟨true, true, st1⟩

/-! ### Auxiliary notions for the idempotence development -/

/-- A matcher only ever consumes a non-empty prefix: the remainder it
returns is a proper suffix of its input.  All matchers of this file satisfy
this. -/
def Consumes (f : Matcher) : Prop :=
  ∀ prev l r np rest, f prev l = some (r, np, rest) →
    rest.length < l.length ∧ rest <:+ l

/-- The per-token action of `\b<stem>s?\b → repl`. -/
def tokF (stem : List Char) (opt : Bool) (repl : List Char)
    (t : List Char) : List Char :=
  if t = stem ∨ (opt ∧ t = stem ++ ['s']) then repl else t

/-- Every character is a word character or whitespace. -/
def wordSpace (l : List Char) : Prop :=
  ∀ c ∈ l, isWordChar c = true ∨ isSpaceChar c = true

/-- The tokens that the word-level substitution stages of
`canonicalize_for_context` rewrite to something different. -/
def changers : List (List Char) :=
  ["ltd".data, "limited".data, "crores".data, "ncds".data, "shares".data,
   "orders".data, "runit".data, "runits".data]

/-- Normalized whitespace shape: every whitespace character is a plain
space, no two adjacent whitespace characters, and no leading or trailing
whitespace. -/
def tidy (y : List Char) : Prop :=
  (∀ c ∈ y, isSpaceChar c = true → c = ' ') ∧
  List.Chain' (fun a b => ¬(isSpaceChar a = true ∧ isSpaceChar b = true)) y ∧
  (∀ c, y.head? = some c → isSpaceChar c = false) ∧
  (∀ c, y.getLast? = some c → isSpaceChar c = false)

/-- Like `tidy` but without the leading-character condition (the shape of
any proper tail of a tidy string). -/
def tidyMid (y : List Char) : Prop :=
  (∀ c ∈ y, isSpaceChar c = true → c = ' ') ∧
  List.Chain' (fun a b => ¬(isSpaceChar a = true ∧ isSpaceChar b = true)) y ∧
  (∀ c, y.getLast? = some c → isSpaceChar c = false)

/-- The replacement texts a matcher can emit all satisfy `P`. -/
def ReplChars (f : Matcher) (P : Char → Prop) : Prop :=
  ∀ prev l r np rest, f prev l = some (r, np, rest) → ∀ c ∈ r, P c

/-- The right-hand sides of `UNIT_CANON` and `VERB_CANON`. -/
def canonValues : List (List Char) :=
  unitCanon.map Prod.snd ++ verbCanon.map Prod.snd

/-- A token is inert when every stage of the second pass leaves it alone:
it is not rewritten by any of the word-level substitutions and is a fixed
point of the unit/verb canonical map. -/
def inert (t : List Char) : Prop :=
  t ∉ changers ∧ canonWord t = t ∧ t ≠ [] ∧
  ∀ c ∈ t, isWordChar c = true ∧ lowerChar c = c

/-! ## Theorems -/

/-- C9: the entity-filter decision depends only on the declared company
identifier and the loaded watchlist, never on the headline text: for any two
calls with the same company name and arbitrary headline texts the result is
identical, even though the orchestrator passes the headline text in. -/
theorem is_nifty500_match_ignores_headline
    (companies : List (List Char)) (c t1 t2 : List Char) :
    is_nifty500_match companies c t1 = is_nifty500_match companies c t2 := rfl

theorem is_nifty500_match_ignores_headline_w :
    is_nifty500_match ["reliance".data] "RIL".data "headline one".data =
      is_nifty500_match ["reliance".data] "RIL".data "headline two".data :=
  is_nifty500_match_ignores_headline _ _ _ _

/-- C7: the entity filter fails open — with an empty (unloadable) watchlist
every input is accepted — and with a loaded watchlist an identifier matching
no alias exactly (here "RIL" against a watchlist containing only "reliance")
is rejected. -/
theorem nifty500_fail_open_and_exact (name text1 text2 : List Char) :
    is_nifty500_match [] name text1 = true ∧
    is_nifty500_match ["reliance".data] "RIL".data text2 = false := by
  exact ⟨rfl, rfl⟩

theorem nifty500_fail_open_and_exact_w :
    is_nifty500_match [] "Anything At All".data "Some headline".data = true ∧
    is_nifty500_match ["reliance".data] "RIL".data "Reliance wins".data =
      false :=
  nifty500_fail_open_and_exact _ _ _

/-- C5: the composite Stockwatch timestamp resolves through its absolute
component, ignoring the relative prefix and the reference time: parsing
`4m ago | 07:42 PM 12-02-2026` yields 2026-02-12 19:42 IST for every
reference `now`. -/
theorem composite_timestamp_resolves_absolute (now : DateTime) :
    parse_timestamp_to_datetime "4m ago | 07:42 PM 12-02-2026".data now =
      some ⟨2026, 2, 12, 19, 42⟩ := rfl

/-- C2 counterexample: the claim's first input spells its minus as U+2212
(the character that appears in the spec), which the volatile-percentage
regex `\([+-]?\d+\.\d+%\)` does not recognize, so the conservative canonical
forms — and hence the MD5 fingerprints computed from them — differ. -/
theorem fingerprint_minus_counterexample :
    normalize_headline_for_exact_dedup "ABC wins order (−1.2%)".data ≠
      normalize_headline_for_exact_dedup "ABC wins order (+3.4%)".data := by
  decide

/-- C2 amended: with the ASCII hyphen-minus the parenthesized signed
percentage is stripped, so the conservative canonical forms (and hence the
fingerprints) of the two percentage variants coincide, while both differ
from the canonical form of "ABC wins another order". -/
theorem fingerprint_pct_stability :
    normalize_headline_for_exact_dedup "ABC wins order (-1.2%)".data =
      normalize_headline_for_exact_dedup "ABC wins order (+3.4%)".data ∧
    normalize_headline_for_exact_dedup "ABC wins order (-1.2%)".data ≠
      normalize_headline_for_exact_dedup "ABC wins another order".data ∧
    normalize_headline_for_exact_dedup "ABC wins order (+3.4%)".data ≠
      normalize_headline_for_exact_dedup "ABC wins another order".data := by
  refine ⟨by decide, by decide, by decide⟩

theorem companiesIn_filter_short (aliases : List (List Char × List Char))
    (t : List Char) :
    companiesIn (aliases.filter (fun p => 3 ≤ p.1.length)) t =
      companiesIn aliases t := by
  unfold companiesIn
  suffices h : ∀ (l : List (List Char × List Char)) (acc : Finset (List Char)),
      (l.filter (fun p => 3 ≤ p.1.length)).foldl
        (companiesStep (lowerStr t) (wordTokens (lowerStr t)).toFinset) acc =
      l.foldl
        (companiesStep (lowerStr t) (wordTokens (lowerStr t)).toFinset) acc by
    exact h aliases ∅
  intro l
  induction l with
  | nil => intro acc; rfl
  | cons p rest ih =>
    intro acc
    rw [List.filter_cons]
    by_cases h3 : 3 ≤ p.1.length
    · rw [if_pos (by simpa using h3), List.foldl_cons, List.foldl_cons]
      exact ih _
    · have hstep : companiesStep (lowerStr t) (wordTokens (lowerStr t)).toFinset
          acc p = acc := by
        unfold companiesStep
        rw [if_pos (by omega)]
      rw [if_neg (by simpa using h3), List.foldl_cons, hstep]
      exact ih _

/-- C10: watchlist aliases shorter than 3 characters never influence the
entity-alias-overlap signal — removing them from the alias map (equivalently,
adding such aliases) leaves `company_alias_overlap` unchanged on every pair
of texts. -/
theorem company_alias_overlap_ignores_short
    (aliases : List (List Char × List Char)) (a b : List Char) :
    company_alias_overlap (aliases.filter (fun p => 3 ≤ p.1.length)) a b =
      company_alias_overlap aliases a b := by
  unfold company_alias_overlap
  rw [companiesIn_filter_short, companiesIn_filter_short]

theorem company_alias_overlap_ignores_short_w :
    company_alias_overlap
      ([("tc".data, "TooShort".data), ("tcs".data, "TCS".data)].filter
        (fun p => 3 ≤ p.1.length))
      "tcs wins order".data "tcs bags deal".data =
    company_alias_overlap [("tc".data, "TooShort".data), ("tcs".data, "TCS".data)]
      "tcs wins order".data "tcs bags deal".data :=
  company_alias_overlap_ignores_short _ _ _

/-- C8: the pruning applied on every save of the context memory yields at
most 200 entries, all drawn from the given memory, and every kept entry
whose stored acceptance timestamp parses was accepted strictly within the
last 24 hours of the save time. -/
theorem save_context_memory_prune_spec (now : DateTime) (mem : List MemEntry) :
    (save_context_memory_prune now mem).length ≤ 200 ∧
    List.Sublist (save_context_memory_prune now mem) mem ∧
    ∀ e ∈ save_context_memory_prune now mem, ∀ t, e.acceptedAt = some t →
      toMinutes now - 1440 < toMinutes t := by
  unfold save_context_memory_prune
  refine ⟨?_, ?_, ?_⟩
  · rw [List.length_drop]; omega
  · exact (List.drop_sublist _ _).trans (List.filter_sublist _)
  · intro e he t ht
    have hef := List.mem_of_mem_drop he
    have hkeep := List.of_mem_filter hef
    rw [ht] at hkeep
    simpa using hkeep

theorem save_context_memory_prune_spec_w :
    (save_context_memory_prune ⟨2026, 1, 1, 0, 0⟩
      [⟨"entry".data, none⟩]).length ≤ 200 :=
  (save_context_memory_prune_spec _ _).1

/-- C6: with a persisted last-check timestamp `t0`, a fresh record that
reaches the recency filter and whose parsed time is not strictly after `t0`
is archived but not alerted; one whose parsed time is strictly after `t0`
(and that the downstream category and Layer B filters do not drop) is
alerted and archived. -/
theorem recency_filter_spec (companies : List (List Char))
    (aliases : List (List Char × List Char)) (thr : ℚ)
    (excl tok : Bool) (st : MonState) (r : RecordIn) (t0 dt : DateTime)
    (hlc : st.lastCheck = some t0) (hdt : r.datetime = some dt)
    (hnew : normalize_headline_for_exact_dedup r.headline ∉ st.seen)
    (hent : ¬(r.source = "STOCKWATCH".data ∧ companies ≠ [] ∧
      ¬ is_nifty500_match companies r.company r.headline)) :
    (dtLe dt t0 = true →
      (processRecord companies aliases thr excl tok st r).archived = true ∧
      (processRecord companies aliases thr excl tok st r).alerted = false) ∧
    (dtLe dt t0 = false →
      (excl && is_results_headline r.headline r.category) = false →
      (is_context_duplicate aliases thr r.headline st.memory r.source).1 =
        false →
      (processRecord companies aliases thr excl tok st r).alerted = true ∧
      (processRecord companies aliases thr excl tok st r).archived = true) := by
  unfold processRecord
  rw [if_neg hnew, if_neg hent, hlc, hdt]
  dsimp only
  constructor
  · intro hle
    rw [hle]
    simp
  · intro hgt hres hdup
    rw [hgt]
    simp only [Bool.not_false, Bool.not_true, ite_false, if_false, hres, hdup]
    cases tok <;> simp

theorem recency_filter_spec_w :
    ((processRecord [] [] (68 / 100) false true
        ⟨[], [], some ⟨2026, 1, 1, 12, 0⟩⟩
        ⟨"XYZ wins a small order".data, some ⟨2026, 1, 1, 11, 55⟩, [],
          "NUVAMA".data, []⟩).archived = true ∧
      (processRecord [] [] (68 / 100) false true
        ⟨[], [], some ⟨2026, 1, 1, 12, 0⟩⟩
        ⟨"XYZ wins a small order".data, some ⟨2026, 1, 1, 11, 55⟩, [],
          "NUVAMA".data, []⟩).alerted = false) ∧
    ((processRecord [] [] (68 / 100) false true
        ⟨[], [], some ⟨2026, 1, 1, 12, 0⟩⟩
        ⟨"ABC wins a big order".data, some ⟨2026, 1, 1, 12, 5⟩, [],
          "NUVAMA".data, []⟩).alerted = true ∧
      (processRecord [] [] (68 / 100) false true
        ⟨[], [], some ⟨2026, 1, 1, 12, 0⟩⟩
        ⟨"ABC wins a big order".data, some ⟨2026, 1, 1, 12, 5⟩, [],
          "NUVAMA".data, []⟩).archived = true) := by
  constructor
  · exact (recency_filter_spec [] [] (68 / 100) false true _ _ _ _ rfl rfl
      (by simp) (by decide)).1 (by decide)
  · exact (recency_filter_spec [] [] (68 / 100) false true _ _ _ _ rfl rfl
      (by simp) (by decide)).2 (by decide) rfl rfl

theorem ctxStep_skip (aliases : List (List Char × List Char))
    (headline source : List Char) (acc : ℚ × List Char) (e : CtxEntry)
    (hsrc : source ≠ []) (hes : e.source = source) :
    ctxStep aliases headline source acc e = acc := by
  unfold ctxStep
  rw [if_pos ⟨hsrc, by rw [hes]; exact hsrc, hes⟩]

theorem ctxFold_filter (aliases : List (List Char × List Char))
    (headline source : List Char) (hsrc : source ≠ []) :
    ∀ (mem : List CtxEntry) (acc : ℚ × List Char),
      mem.foldl (ctxStep aliases headline source) acc =
      (mem.filter (fun e => e.source ≠ source)).foldl
        (ctxStep aliases headline source) acc := by
  intro mem
  induction mem with
  | nil => intro acc; rfl
  | cons e rest ih =>
    intro acc
    rw [List.filter_cons]
    by_cases hes : e.source = source
    · rw [if_neg (by simp [hes]), List.foldl_cons,
        ctxStep_skip aliases headline source acc e hsrc hes]
      exact ih _
    · rw [if_pos (by simpa using hes), List.foldl_cons, List.foldl_cons]
      exact ih _

theorem ctxFold_lt (aliases : List (List Char × List Char))
    (headline source : List Char) (thr : ℚ) :
    ∀ (mem : List CtxEntry) (acc : ℚ × List Char),
      (∀ e ∈ mem,
        contextual_similarity_score aliases headline e.headline < thr ∨
        (source ≠ [] ∧ e.source ≠ [] ∧ e.source = source)) →
      acc.1 < thr →
      (mem.foldl (ctxStep aliases headline source) acc).1 < thr := by
  intro mem
  induction mem with
  | nil => intro acc _ hacc; exact hacc
  | cons e rest ih =>
    intro acc hall hacc
    rw [List.foldl_cons]
    refine ih _ (fun x hx => hall x (List.mem_cons_of_mem _ hx)) ?_
    rcases hall e (List.mem_cons_self e rest) with hlt | hskip
    · unfold ctxStep
      split
      · exact hacc
      · dsimp only
        split
        · exact hlt
        · exact hacc
    · rw [ctxStep_skip aliases headline source acc e hskip.1 hskip.2.2]
      exact hacc

/-- C1: when the record's source is set (as it always is for records the
orchestrator builds), `is_context_duplicate` never reports a duplicate when
the only memory entries scoring at or above the threshold share the
record's source, and same-source memory entries are never compared at all
(the result equals the result on the cross-source entries alone). -/
theorem cross_source_only_rule (aliases : List (List Char × List Char))
    (thr : ℚ) (hthr : 0 < thr) (headline source : List Char)
    (hsrc : source ≠ []) (memory : List CtxEntry)
    (hhigh : ∀ e ∈ memory,
      thr ≤ contextual_similarity_score aliases headline e.headline →
      e.source = source) :
    (is_context_duplicate aliases thr headline memory source).1 = false ∧
    is_context_duplicate aliases thr headline memory source =
      is_context_duplicate aliases thr headline
        (memory.filter (fun e => e.source ≠ source)) source := by
  have hall : ∀ e ∈ memory,
      contextual_similarity_score aliases headline e.headline < thr ∨
      (source ≠ [] ∧ e.source ≠ [] ∧ e.source = source) := by
    intro e he
    by_cases hs : thr ≤ contextual_similarity_score aliases headline e.headline
    · have hes := hhigh e he hs
      exact Or.inr ⟨hsrc, by rw [hes]; exact hsrc, hes⟩
    · exact Or.inl (lt_of_not_le hs)
  constructor
  · unfold is_context_duplicate
    by_cases hm : memory = []
    · rw [if_pos hm]
    · rw [if_neg hm]
      have hlt := ctxFold_lt aliases headline source thr memory (0, []) hall hthr
      simpa using not_le.mpr hlt
  · unfold is_context_duplicate
    rw [ctxFold_filter aliases headline source hsrc memory (0, [])]
    by_cases hm : memory = []
    · subst hm; rfl
    · rw [if_neg hm]
      by_cases hf : memory.filter (fun e => e.source ≠ source) = []
      · rw [if_pos hf, hf]
        have : ¬ thr ≤ (0 : ℚ) := not_le.mpr hthr
        simp [this]
      · rw [if_neg hf]

theorem cross_source_only_rule_w :
    (is_context_duplicate [] (68 / 100) "ABC wins 500 crore order".data
      [⟨"ABC wins 500 crore order".data, "NUVAMA".data⟩]
      "NUVAMA".data).1 = false ∧
    is_context_duplicate [] (68 / 100) "ABC wins 500 crore order".data
      [⟨"ABC wins 500 crore order".data, "NUVAMA".data⟩] "NUVAMA".data =
      is_context_duplicate [] (68 / 100) "ABC wins 500 crore order".data
        ([⟨"ABC wins 500 crore order".data, "NUVAMA".data⟩].filter
          (fun e => e.source ≠ "NUVAMA".data)) "NUVAMA".data := by
  refine cross_source_only_rule [] (68 / 100) (by norm_num) _ _ (by decide) _ ?_
  intro e he _hs
  rw [List.mem_singleton] at he
  rw [he]

theorem jacPart_comm (ha hb : List Char) : jacPart ha hb = jacPart hb ha := by
  unfold jacPart
  by_cases h1 : contentSet (canonicalize_for_context ha) = ∅ <;>
  by_cases h2 : contentSet (canonicalize_for_context hb) = ∅ <;>
    simp [h1, h2, Finset.inter_comm, Finset.union_comm]

theorem contPart_comm (ha hb : List Char) : contPart ha hb = contPart hb ha := by
  unfold contPart
  by_cases h1 : contentSet (canonicalize_for_context ha) = ∅ <;>
  by_cases h2 : contentSet (canonicalize_for_context hb) = ∅ <;>
    simp [h1, h2, Finset.inter_comm, min_comm]

theorem numPart_comm (ha hb : List Char) : numPart ha hb = numPart hb ha := by
  unfold numPart
  by_cases h1 : extract_numbers (canonicalize_for_context ha) = ∅ <;>
  by_cases h2 : extract_numbers (canonicalize_for_context hb) = ∅ <;>
    simp [h1, h2, Finset.inter_comm, Finset.union_comm, or_comm]

theorem company_alias_overlap_comm (aliases : List (List Char × List Char))
    (ha hb : List Char) :
    company_alias_overlap aliases ha hb = company_alias_overlap aliases hb ha := by
  unfold company_alias_overlap
  by_cases h1 : companiesIn aliases ha = ∅ <;>
  by_cases h2 : companiesIn aliases hb = ∅ <;>
    simp [h1, h2, Finset.inter_comm, min_comm]

/-- C4 amended: the overall score is symmetric whenever the character-level
`SequenceMatcher` ratio is symmetric for the pair (the other four signals
are symmetric unconditionally); full symmetry fails in general, see the
counterexample. -/
theorem score_symmetric_of_seq_symmetric
    (aliases : List (List Char × List Char)) (a b : List Char)
    (hseq : seqPart a b = seqPart b a) :
    contextual_similarity_score aliases a b =
      contextual_similarity_score aliases b a := by
  unfold contextual_similarity_score scoreBase
  rw [hseq, jacPart_comm, contPart_comm, numPart_comm,
    company_alias_overlap_comm]

theorem canon_tide : canonicalize_for_context "tide".data = "tide".data := by
  decide

theorem canon_diet : canonicalize_for_context "diet".data = "diet".data := by
  decide

theorem seqPart_tide_diet : seqPart "tide".data "diet".data = 1 / 4 := by
  unfold seqPart seqRatio
  rw [canon_tide, canon_diet,
    show matchTotal "tide".data "diet".data
      ("tide".data.length + "diet".data.length + 1) 0 "tide".data.length 0
      "diet".data.length = 1 from by decide,
    if_neg (by decide),
    show "tide".data.length + "diet".data.length = 8 from by decide]
  norm_num

theorem seqPart_diet_tide : seqPart "diet".data "tide".data = 1 / 2 := by
  unfold seqPart seqRatio
  rw [canon_tide, canon_diet,
    show matchTotal "diet".data "tide".data
      ("diet".data.length + "tide".data.length + 1) 0 "diet".data.length 0
      "tide".data.length = 2 from by decide,
    if_neg (by decide),
    show "diet".data.length + "tide".data.length = 8 from by decide]
  norm_num

theorem score_tide_diet :
    contextual_similarity_score [] "tide".data "diet".data = 1 / 8 := by
  have hjac : jacPart "tide".data "diet".data = 0 := by
    unfold jacPart
    rw [canon_tide, canon_diet, if_pos (by constructor <;> decide),
      show (contentSet "tide".data ∩ contentSet "diet".data).card = 0 from
        by decide]
    rw [Nat.cast_zero, zero_div]
  have hcont : contPart "tide".data "diet".data = 0 := by
    unfold contPart
    rw [canon_tide, canon_diet, if_pos (by constructor <;> decide),
      show (contentSet "tide".data ∩ contentSet "diet".data).card = 0 from
        by decide]
    rw [Nat.cast_zero, zero_div]
  have hnum : numPart "tide".data "diet".data = 1 / 2 := by
    unfold numPart
    rw [canon_tide, canon_diet, if_neg (by decide)]
  have hcomp : company_alias_overlap [] "tide".data "diet".data = 0 := by
    decide
  unfold contextual_similarity_score scoreBase
  rw [seqPart_tide_diet, hjac, hcont, hnum, hcomp, if_neg (by norm_num),
    min_def, if_pos (by norm_num)]
  norm_num

theorem score_diet_tide :
    contextual_similarity_score [] "diet".data "tide".data = 7 / 40 := by
  have hjac : jacPart "diet".data "tide".data = 0 := by
    unfold jacPart
    rw [canon_diet, canon_tide, if_pos (by constructor <;> decide),
      show (contentSet "diet".data ∩ contentSet "tide".data).card = 0 from
        by decide]
    rw [Nat.cast_zero, zero_div]
  have hcont : contPart "diet".data "tide".data = 0 := by
    unfold contPart
    rw [canon_diet, canon_tide, if_pos (by constructor <;> decide),
      show (contentSet "diet".data ∩ contentSet "tide".data).card = 0 from
        by decide]
    rw [Nat.cast_zero, zero_div]
  have hnum : numPart "diet".data "tide".data = 1 / 2 := by
    unfold numPart
    rw [canon_diet, canon_tide, if_neg (by decide)]
  have hcomp : company_alias_overlap [] "diet".data "tide".data = 0 := by
    decide
  unfold contextual_similarity_score scoreBase
  rw [seqPart_diet_tide, hjac, hcont, hnum, hcomp, if_neg (by norm_num),
    min_def, if_pos (by norm_num)]
  norm_num

/-- C4 counterexample: the similarity score is not symmetric, because
`difflib.SequenceMatcher` is not: on the pair ("tide", "diet") the score is
1/8 one way and 7/40 the other (the sequence ratio is 0.25 versus 0.5). -/
theorem score_asymmetry_counterexample :
    contextual_similarity_score [] "tide".data "diet".data ≠
      contextual_similarity_score [] "diet".data "tide".data := by
  rw [score_tide_diet, score_diet_tide]
  norm_num

theorem canon_abcdef :
    canonicalize_for_context "abc def".data = "abc def".data := by decide

theorem canon_abc :
    canonicalize_for_context "abc".data = "abc".data := by decide

theorem seqPart_abcdef_abc : seqPart "abc def".data "abc".data = 3 / 5 := by
  unfold seqPart seqRatio
  rw [canon_abcdef, canon_abc,
    show matchTotal "abc def".data "abc".data
      ("abc def".data.length + "abc".data.length + 1) 0 "abc def".data.length
      0 "abc".data.length = 3 from by decide,
    if_neg (by decide),
    show "abc def".data.length + "abc".data.length = 10 from by decide]
  norm_num

theorem seqPart_abc_abcdef : seqPart "abc".data "abc def".data = 3 / 5 := by
  unfold seqPart seqRatio
  rw [canon_abcdef, canon_abc,
    show matchTotal "abc".data "abc def".data
      ("abc".data.length + "abc def".data.length + 1) 0 "abc".data.length
      0 "abc def".data.length = 3 from by decide,
    if_neg (by decide),
    show "abc".data.length + "abc def".data.length = 10 from by decide]
  norm_num

theorem score_symmetric_of_seq_symmetric_w :
    contextual_similarity_score [] "abc def".data "abc".data =
      contextual_similarity_score [] "abc".data "abc def".data :=
  score_symmetric_of_seq_symmetric [] "abc def".data "abc".data
    (seqPart_abcdef_abc.trans seqPart_abc_abcdef.symm)

/-! ### Fuel elimination for the substitution scanner -/

theorem scanSubF_succ (f : Matcher) (hf : Consumes f) :
    ∀ n (l : List Char) prev, l.length ≤ n →
      scanSubF f (n + 1) prev l = scanSubF f n prev l := by
  intro n
  induction n with
  | zero =>
    intro l prev hl
    have : l = [] := List.length_eq_zero.mp (Nat.le_zero.mp hl)
    subst this
    rfl
  | succ n ih =>
    intro l prev hl
    match l with
    | [] => rfl
    | c :: cs =>
      cases hm : f prev (c :: cs) with
      | some t =>
        obtain ⟨r, np, rest⟩ := t
        have hcon := (hf prev _ r np rest hm).1
        simp only [List.length_cons] at hl hcon
        simp only [scanSubF, hm]
        rw [ih rest np (by omega)]
      | none =>
        simp only [List.length_cons] at hl
        simp only [scanSubF, hm]
        rw [ih cs (isWordChar c) (by omega)]

theorem scanSubF_ge (f : Matcher) (hf : Consumes f) :
    ∀ k n (l : List Char) prev, l.length ≤ n →
      scanSubF f (n + k) prev l = scanSubF f n prev l := by
  intro k
  induction k with
  | zero => intro n l prev _; rfl
  | succ k ih =>
    intro n l prev hl
    have h1 : n + (k + 1) = (n + k) + 1 := by omega
    rw [h1, scanSubF_succ f hf (n + k) l prev (by omega), ih n l prev hl]

theorem scanSub_nil (f : Matcher) (prev : Bool) : scanSub f prev [] = [] := rfl

theorem scanSub_cons_some (f : Matcher) (hf : Consumes f) {prev : Bool}
    {c : Char} {cs r rest : List Char} {np : Bool}
    (hm : f prev (c :: cs) = some (r, np, rest)) :
    scanSub f prev (c :: cs) = r ++ scanSub f np rest := by
  have hcon := (hf prev _ r np rest hm).1
  simp only [List.length_cons] at hcon
  show scanSubF f (cs.length + 1) prev (c :: cs) = _
  simp only [scanSubF, hm]
  have h1 : cs.length = rest.length + (cs.length - rest.length) := by omega
  rw [h1, scanSubF_ge f hf (cs.length - rest.length) rest.length rest np
    (le_refl _)]
  rfl

theorem scanSub_cons_none (f : Matcher) (hf : Consumes f) {prev : Bool}
    {c : Char} {cs : List Char} (hm : f prev (c :: cs) = none) :
    scanSub f prev (c :: cs) = c :: scanSub f (isWordChar c) cs := by
  show scanSubF f (cs.length + 1) prev (c :: cs) = _
  simp only [scanSubF, hm]
  rfl

/-! ### The matchers consume a non-empty prefix -/

theorem digits1_spec {l r : List Char} (h : digits1 l = some r) :
    r <:+ l ∧ r.length < l.length := by
  match l with
  | [] => simp [digits1] at h
  | c :: cs =>
    simp only [digits1] at h
    by_cases hd : c.isDigit
    · rw [if_pos hd] at h
      cases h
      refine ⟨(List.dropWhile_suffix _).trans (List.suffix_cons c cs), ?_⟩
      have := dropWhile_len_le Char.isDigit cs
      simp only [List.length_cons]
      omega
    · rw [if_neg hd] at h
      cases h

theorem pctSign_spec (r1 : List Char) :
    pctSign r1 <:+ r1 ∧ (pctSign r1).length ≤ r1.length := by
  match r1 with
  | [] => exact ⟨List.suffix_refl _, le_refl _⟩
  | c :: t =>
    unfold pctSign
    by_cases hs : c = '+' || c = '-'
    · simp only [hs, if_true]
      exact ⟨List.suffix_cons c t, by simp only [List.length_cons]; omega⟩
    · simp only [hs, if_false]
      exact ⟨List.suffix_refl _, le_refl _⟩

theorem pctMatcher_consumes : Consumes pctMatcher := by
  intro prev l r np rest hm
  unfold pctMatcher at hm
  split at hm
  · next r1 =>
    have hr2 := pctSign_spec r1
    split at hm
    · next r3 hd2 =>
      have h3 := digits1_spec hd2
      split at hm
      · next r4 =>
        split at hm
        · next r5 hd4 =>
          have h5 := digits1_spec hd4
          split at hm
          · next r6 =>
            cases hm
            constructor
            · have hl3 := h3.2
              have hl5 := h5.2
              have hr2l := hr2.2
              simp only [List.length_cons] at hl3 hl5 ⊢
              omega
            · refine List.IsSuffix.trans ?_ ((h3.1.trans hr2.1).trans
                (List.suffix_cons '(' r1))
              exact ((List.IsSuffix.trans ⟨[')'], rfl⟩
                ⟨['%'], rfl⟩).trans h5.1).trans (List.suffix_cons '.' r4)
          · cases hm
        · cases hm
      · cases hm
    · cases hm
  · cases hm

theorem dropWhile_cons_suffix {p : Char → Bool} {l r : List Char} {c : Char}
    (h : l.dropWhile p = c :: r) : r <:+ l ∧ r.length < l.length := by
  have hs : c :: r <:+ l := h ▸ List.dropWhile_suffix p
  refine ⟨(List.suffix_cons c r).trans hs, ?_⟩
  have := hs.length_le
  simp only [List.length_cons] at this
  omega

theorem dashColonMatcher_consumes (dashes repl : List Char) :
    Consumes (dashColonMatcher dashes repl) := by
  intro prev l r np rest hm
  unfold dashColonMatcher at hm
  match l with
  | [] => cases hm
  | d :: r1 =>
    simp only at hm
    by_cases hd : d ∈ dashes
    · rw [if_pos hd] at hm
      split at hm
      · next r3 heq =>
        cases hm
        obtain ⟨h1, h2⟩ := dropWhile_cons_suffix heq
        have h3 : r3.dropWhile isSpaceChar <:+ r3 := List.dropWhile_suffix _
        refine ⟨?_, (h3.trans h1).trans (List.suffix_cons d r1)⟩
        have h5 := h3.length_le
        simp only [List.length_cons]
        omega
      · cases hm
    · rw [if_neg hd] at hm
      cases hm

theorem colonMatcher_consumes : Consumes colonMatcher := by
  intro prev l r np rest hm
  unfold colonMatcher at hm
  split at hm
  · next r3 heq =>
    cases hm
    obtain ⟨h1, h2⟩ := dropWhile_cons_suffix heq
    have h3 : r3.dropWhile isSpaceChar <:+ r3 := List.dropWhile_suffix _
    refine ⟨?_, h3.trans h1⟩
    have h5 := h3.length_le
    omega
  · cases hm

theorem commaMatcher_consumes : Consumes commaMatcher := by
  intro prev l r np rest hm
  unfold commaMatcher at hm
  split at hm
  · next a b r2 =>
    by_cases hab : a.isDigit && b.isDigit
    · rw [if_pos hab] at hm
      cases hm
      refine ⟨by simp only [List.length_cons]; omega, ?_⟩
      exact ((List.suffix_cons b _).trans (List.suffix_cons ',' _)).trans
        (List.suffix_cons a _)
    · rw [if_neg hab] at hm
      cases hm
  · cases hm

theorem dropPref_spec :
    ∀ (p l r : List Char), dropPref p l = some r →
      r <:+ l ∧ r.length + p.length = l.length := by
  intro p
  induction p with
  | nil =>
    intro l r h
    cases h
    simp [List.suffix_refl]
  | cons x xs ih =>
    intro l r h
    match l with
    | [] => cases h
    | c :: cs =>
      unfold dropPref at h
      by_cases hc : c = x
      · rw [if_pos hc] at h
        obtain ⟨h1, h2⟩ := ih cs r h
        refine ⟨h1.trans (List.suffix_cons c cs), ?_⟩
        simp only [List.length_cons]
        omega
      · rw [if_neg hc] at h
        cases h

theorem wordMatcher_consumes (stem : List Char) (hs : stem ≠ [])
    (opt : Bool) (repl : List Char) :
    Consumes (wordMatcher stem opt repl) := by
  intro prev l r np rest hm
  unfold wordMatcher at hm
  by_cases hp : prev
  · rw [if_pos hp] at hm; cases hm
  · rw [if_neg hp] at hm
    split at hm
    · next r1 hdp =>
      obtain ⟨hsuf1, hlen1⟩ := dropPref_spec stem l r1 hdp
      have hstl : 0 < stem.length := List.length_pos.mpr hs
      by_cases ho : opt
      · rw [if_pos ho] at hm
        split at hm
        · next r2 =>
          by_cases hb : atBoundary r2
          · rw [if_pos hb] at hm
            cases hm
            refine ⟨?_, ((List.suffix_cons 's' _).trans hsuf1)⟩
            simp only [List.length_cons] at hlen1
            omega
          · rw [if_neg hb] at hm
            by_cases hb1 : atBoundary ('s' :: r2)
            · rw [if_pos hb1] at hm
              cases hm
              exact ⟨by omega, hsuf1⟩
            · rw [if_neg hb1] at hm; cases hm
        · by_cases hb : atBoundary r1
          · rw [if_pos hb] at hm
            cases hm
            exact ⟨by omega, hsuf1⟩
          · rw [if_neg hb] at hm; cases hm
      · rw [if_neg ho] at hm
        by_cases hb : atBoundary r1
        · rw [if_pos hb] at hm
          cases hm
          exact ⟨by omega, hsuf1⟩
        · rw [if_neg hb] at hm; cases hm
    · cases hm

/-! ### Splitter toolkit -/

theorem word_space_disjoint {c : Char} (h : isSpaceChar c = true) :
    isWordChar c = false := by
  simp only [isSpaceChar, Bool.or_eq_true, decide_eq_true_eq] at h
  rcases h with (((((h | h) | h) | h) | h) | h) | h <;> subst h <;> decide

theorem space_of_not_word {c : Char} (h : isWordChar c = true) :
    isSpaceChar c = false := by
  cases hs : isSpaceChar c with
  | true => rw [word_space_disjoint hs] at h; cases h
  | false => rfl

theorem splitWsF_succ :
    ∀ n (l : List Char), l.length ≤ n → splitWsF (n + 1) l = splitWsF n l := by
  intro n
  induction n with
  | zero =>
    intro l hl
    have : l = [] := List.length_eq_zero.mp (Nat.le_zero.mp hl)
    subst this
    rfl
  | succ n ih =>
    intro l hl
    match l with
    | [] => rfl
    | c :: cs =>
      simp only [List.length_cons] at hl
      by_cases hc : isSpaceChar c = true
      · simp only [splitWsF]
        rw [if_pos hc, if_pos hc, ih cs (by omega)]
      · simp only [splitWsF]
        have := dropWhile_len_le (fun x => !isSpaceChar x) cs
        rw [if_neg hc, if_neg hc, ih _ (by omega)]

theorem splitWsF_ge :
    ∀ k n (l : List Char), l.length ≤ n → splitWsF (n + k) l = splitWsF n l := by
  intro k
  induction k with
  | zero => intro n l _; rfl
  | succ k ih =>
    intro n l hl
    have h1 : n + (k + 1) = (n + k) + 1 := by omega
    rw [h1, splitWsF_succ (n + k) l (by omega), ih n l hl]

theorem splitWs_nil : splitWs [] = [] := rfl

theorem splitWs_cons_space {c : Char} (cs : List Char)
    (hc : isSpaceChar c = true) : splitWs (c :: cs) = splitWs cs := by
  show splitWsF (cs.length + 1) (c :: cs) = splitWsF cs.length cs
  simp only [splitWsF]
  rw [if_pos hc]

theorem splitWs_cons_word {c : Char} (cs : List Char)
    (hc : isSpaceChar c = false) :
    splitWs (c :: cs) =
      (c :: cs.takeWhile (fun x => !isSpaceChar x)) ::
        splitWs (cs.dropWhile (fun x => !isSpaceChar x)) := by
  show splitWsF (cs.length + 1) (c :: cs) = _
  simp only [splitWsF]
  rw [if_neg (by simp [hc])]
  have h1 := dropWhile_len_le (fun x => !isSpaceChar x) cs
  have h2 : cs.length =
      (cs.dropWhile (fun x => !isSpaceChar x)).length +
        (cs.length - (cs.dropWhile (fun x => !isSpaceChar x)).length) := by
    omega
  rw [h2, splitWsF_ge _ _ _ (le_refl _)]
  rfl

theorem collapseWsF_succ :
    ∀ n (l : List Char), l.length ≤ n → collapseWsF (n + 1) l = collapseWsF n l := by
  intro n
  induction n with
  | zero =>
    intro l hl
    have : l = [] := List.length_eq_zero.mp (Nat.le_zero.mp hl)
    subst this
    rfl
  | succ n ih =>
    intro l hl
    match l with
    | [] => rfl
    | c :: cs =>
      simp only [List.length_cons] at hl
      by_cases hc : isSpaceChar c = true
      · simp only [collapseWsF]
        have := dropWhile_len_le isSpaceChar cs
        rw [if_pos hc, if_pos hc, ih _ (by omega)]
      · simp only [collapseWsF]
        rw [if_neg hc, if_neg hc, ih cs (by omega)]

theorem collapseWsF_ge :
    ∀ k n (l : List Char), l.length ≤ n → collapseWsF (n + k) l = collapseWsF n l := by
  intro k
  induction k with
  | zero => intro n l _; rfl
  | succ k ih =>
    intro n l hl
    have h1 : n + (k + 1) = (n + k) + 1 := by omega
    rw [h1, collapseWsF_succ (n + k) l (by omega), ih n l hl]

theorem collapseWs_nil : collapseWs [] = [] := rfl

theorem collapseWs_cons_space {c : Char} (cs : List Char)
    (hc : isSpaceChar c = true) :
    collapseWs (c :: cs) = ' ' :: collapseWs (cs.dropWhile isSpaceChar) := by
  show collapseWsF (cs.length + 1) (c :: cs) = _
  simp only [collapseWsF]
  rw [if_pos hc]
  have h1 := dropWhile_len_le isSpaceChar cs
  have h2 : cs.length = (cs.dropWhile isSpaceChar).length +
      (cs.length - (cs.dropWhile isSpaceChar).length) := by omega
  rw [h2, collapseWsF_ge _ _ _ (le_refl _)]
  rfl

theorem collapseWs_cons_word {c : Char} (cs : List Char)
    (hc : isSpaceChar c = false) :
    collapseWs (c :: cs) = c :: collapseWs cs := by
  show collapseWsF (cs.length + 1) (c :: cs) = _
  simp only [collapseWsF]
  rw [if_neg (by simp [hc])]
  rfl

theorem takeWhile_app {p : Char → Bool} :
    ∀ (u v : List Char), (∀ c ∈ u, p c = true) →
      (∀ c, v.head? = some c → p c = false) →
      (u ++ v).takeWhile p = u ∧ (u ++ v).dropWhile p = v := by
  intro u
  induction u with
  | nil =>
    intro v _ hv
    match v with
    | [] => exact ⟨rfl, rfl⟩
    | c :: cs =>
      have hc := hv c rfl
      constructor
      · rw [List.nil_append, List.takeWhile_cons, if_neg (by simp [hc])]
      · rw [List.nil_append, List.dropWhile_cons, if_neg (by simp [hc])]
  | cons a u' ih =>
    intro v hu hv
    have ha : p a = true := hu a (List.mem_cons_self _ _)
    obtain ⟨h1, h2⟩ := ih v (fun c hc => hu c (List.mem_cons_of_mem _ hc)) hv
    constructor
    · rw [List.cons_append, List.takeWhile_cons, if_pos ha, h1]
    · rw [List.cons_append, List.dropWhile_cons, if_pos ha, h2]

theorem dropWhile_head_not {p : Char → Bool} :
    ∀ (l : List Char) (s : Char) (rs : List Char),
      l.dropWhile p = s :: rs → p s = false := by
  intro l
  induction l with
  | nil => intro s rs h; cases h
  | cons a l ih =>
    intro s rs h
    by_cases ha : p a = true
    · rw [List.dropWhile_cons, if_pos ha] at h
      exact ih s rs h
    · rw [List.dropWhile_cons, if_neg ha] at h
      cases h
      cases hpa : p a with
      | true => exact absurd hpa ha
      | false => rfl

theorem dropPref_app : ∀ (p t : List Char), dropPref p (p ++ t) = some t := by
  intro p
  induction p with
  | nil => intro t; rfl
  | cons x xs ih =>
    intro t
    show dropPref (x :: xs) (x :: (xs ++ t)) = some t
    unfold dropPref
    rw [if_pos rfl]
    exact ih t

theorem dropPref_eq_some :
    ∀ (p l r : List Char), dropPref p l = some r → l = p ++ r := by
  intro p
  induction p with
  | nil => intro l r h; cases h; rfl
  | cons x xs ih =>
    intro l r h
    match l with
    | [] => cases h
    | c :: cs =>
      unfold dropPref at h
      by_cases hc : c = x
      · rw [if_pos hc] at h
        rw [List.cons_append, ← ih cs r h, hc]
      · rw [if_neg hc] at h
        cases h

theorem splitWs_sound :
    ∀ n (l : List Char), l.length ≤ n → ∀ t ∈ splitWs l,
      t ≠ [] ∧ ∀ c ∈ t, isSpaceChar c = false ∧ c ∈ l := by
  intro n
  induction n with
  | zero =>
    intro l hl
    have : l = [] := List.length_eq_zero.mp (Nat.le_zero.mp hl)
    subst this
    intro t ht
    cases ht
  | succ n ih =>
    intro l hl t ht
    match l with
    | [] => cases ht
    | c :: cs =>
      simp only [List.length_cons] at hl
      by_cases hc : isSpaceChar c = true
      · rw [splitWs_cons_space cs hc] at ht
        obtain ⟨h1, h2⟩ := ih cs (by omega) t ht
        exact ⟨h1, fun d hd =>
          ⟨(h2 d hd).1, List.mem_cons_of_mem _ (h2 d hd).2⟩⟩
      · have hcf : isSpaceChar c = false := by
          cases hx : isSpaceChar c with
          | true => exact absurd hx hc
          | false => rfl
        rw [splitWs_cons_word cs hcf] at ht
        rcases List.mem_cons.mp ht with rfl | ht
        · refine ⟨List.cons_ne_nil _ _, ?_⟩
          intro d hd
          rcases List.mem_cons.mp hd with rfl | hd
          · exact ⟨hcf, List.mem_cons_self _ _⟩
          · have h1 := List.mem_takeWhile_imp hd
            have h2 : d ∈ cs := (List.takeWhile_prefix _).sublist.mem hd
            refine ⟨?_, List.mem_cons_of_mem _ h2⟩
            cases hx : isSpaceChar d with
            | true => rw [hx] at h1; cases h1
            | false => rfl
        · have hlen := dropWhile_len_le (fun x => !isSpaceChar x) cs
          obtain ⟨h1, h2⟩ := ih _ (by omega) t ht
          refine ⟨h1, fun d hd => ⟨(h2 d hd).1, ?_⟩⟩
          have h3 : d ∈ cs := (List.dropWhile_suffix _).mem (h2 d hd).2
          exact List.mem_cons_of_mem _ h3

theorem splitWs_append_word (u v : List Char) (hu : u ≠ [])
    (huw : ∀ c ∈ u, isSpaceChar c = false)
    (hv : v = [] ∨ ∃ s rs, v = s :: rs ∧ isSpaceChar s = true) :
    splitWs (u ++ v) = u :: splitWs v := by
  match u, hu with
  | c :: u', _ =>
    rw [List.cons_append,
      splitWs_cons_word _ (huw c (List.mem_cons_self _ _))]
    have hvh : ∀ s, v.head? = some s → (fun x => !isSpaceChar x) s = false := by
      intro s hs
      rcases hv with rfl | ⟨s', rs, rfl, hs'⟩
      · cases hs
      · cases hs
        simp [hs']
    obtain ⟨h1, h2⟩ := takeWhile_app u' v
      (fun d hd => by simp [huw d (List.mem_cons_of_mem _ hd)]) hvh
    rw [h1, h2]

theorem joinSpace_nil : joinSpace [] = [] := rfl

theorem joinSpace_cons (t : List Char) (ts : List (List Char)) :
    joinSpace (t :: ts) = if ts = [] then t else t ++ ' ' :: joinSpace ts := by
  match ts with
  | [] => rfl
  | t' :: ts' => rw [if_neg (List.cons_ne_nil _ _)]; rfl

theorem splitWs_joinSpace :
    ∀ T : List (List Char),
      (∀ t ∈ T, t ≠ [] ∧ ∀ c ∈ t, isSpaceChar c = false) →
      splitWs (joinSpace T) = T := by
  intro T
  induction T with
  | nil => intro _; rfl
  | cons t ts ih =>
    intro hT
    obtain ⟨ht1, ht2⟩ := hT t (List.mem_cons_self _ _)
    match ts with
    | [] =>
      show splitWs t = [t]
      have h3 := splitWs_append_word t [] ht1 ht2 (Or.inl rfl)
      rwa [List.append_nil] at h3
    | t' :: ts' =>
      rw [joinSpace_cons, if_neg (List.cons_ne_nil _ _),
        splitWs_append_word t _ ht1 ht2
          (Or.inr ⟨' ', joinSpace (t' :: ts'), rfl, by decide⟩),
        splitWs_cons_space _ (by decide),
        ih (fun s hs => hT s (List.mem_cons_of_mem _ hs))]

/-! ### Generic behaviour of the scanner -/

theorem scanSubF_id (f : Matcher) :
    ∀ n (l : List Char) prev,
      (∀ p (l' : List Char), l' <:+ l → f p l' = none) →
      scanSubF f n prev l = l := by
  intro n
  induction n with
  | zero => intro l prev _; rfl
  | succ n ih =>
    intro l prev hnf
    match l with
    | [] => rfl
    | c :: cs =>
      have h0 : f prev (c :: cs) = none := hnf prev _ (List.suffix_refl _)
      simp only [scanSubF, h0]
      rw [ih cs (isWordChar c)
        (fun p l' hl' => hnf p l' (hl'.trans (List.suffix_cons c cs)))]

theorem scanSub_id (f : Matcher) (prev : Bool) (l : List Char)
    (hnf : ∀ p (l' : List Char), l' <:+ l → f p l' = none) :
    scanSub f prev l = l :=
  scanSubF_id f l.length l prev hnf

theorem scanSubF_chars (f : Matcher) (hf : Consumes f) (P : Char → Prop)
    (hr : ReplChars f P) :
    ∀ n prev (l : List Char) c, c ∈ scanSubF f n prev l → c ∈ l ∨ P c := by
  intro n
  induction n with
  | zero => intro prev l c hc; exact Or.inl hc
  | succ n ih =>
    intro prev l c hc
    match l with
    | [] => simp only [scanSubF, List.not_mem_nil] at hc
    | d :: cs =>
      cases hm : f prev (d :: cs) with
      | some t =>
        obtain ⟨r, np, rest⟩ := t
        simp only [scanSubF, hm, List.mem_append] at hc
        rcases hc with hc | hc
        · exact Or.inr (hr prev _ r np rest hm c hc)
        · rcases ih np rest c hc with h | h
          · exact Or.inl ((hf prev _ r np rest hm).2.mem h)
          · exact Or.inr h
      | none =>
        simp only [scanSubF, hm, List.mem_cons] at hc
        rcases hc with rfl | hc
        · exact Or.inl (List.mem_cons_self _ _)
        · rcases ih (isWordChar d) cs c hc with h | h
          · exact Or.inl (List.mem_cons_of_mem _ h)
          · exact Or.inr h

theorem scanSub_chars (f : Matcher) (hf : Consumes f) (P : Char → Prop)
    (hr : ReplChars f P) (prev : Bool) (l : List Char) (c : Char)
    (hc : c ∈ scanSub f prev l) : c ∈ l ∨ P c :=
  scanSubF_chars f hf P hr l.length prev l c hc

/-! ### When a matcher cannot fire -/

theorem pctMatcher_nofire (p : Bool) (l : List Char) (h : '(' ∉ l) :
    pctMatcher p l = none := by
  unfold pctMatcher
  split
  · next r1 => exact absurd (List.mem_cons_self '(' r1) h
  · rfl

theorem dashColonMatcher_nofire (dashes repl : List Char) (p : Bool)
    (l : List Char) (h : ∀ c ∈ l, c ∉ dashes) :
    dashColonMatcher dashes repl p l = none := by
  unfold dashColonMatcher
  split
  · next d r1 =>
    rw [if_neg (h d (List.mem_cons_self d r1))]
  · rfl

theorem colonMatcher_nofire (p : Bool) (l : List Char) (h : ':' ∉ l) :
    colonMatcher p l = none := by
  unfold colonMatcher
  split
  · next r3 heq =>
    have h1 : ':' ∈ l.dropWhile isSpaceChar := by
      rw [heq]; exact List.mem_cons_self _ _
    exact absurd ((List.dropWhile_suffix isSpaceChar).mem h1) h
  · rfl

theorem commaMatcher_nofire (p : Bool) (l : List Char) (h : ',' ∉ l) :
    commaMatcher p l = none := by
  unfold commaMatcher
  split
  · next a b r2 =>
    exact absurd (List.mem_cons_of_mem a (List.mem_cons_self ',' _)) h
  · rfl

theorem wordMatcher_space_head (stem : List Char) (opt : Bool)
    (repl : List Char) (hstem : ∀ c ∈ stem, isWordChar c = true)
    (hne : stem ≠ []) (p : Bool) (c : Char) (cs : List Char)
    (hc : isSpaceChar c = true) :
    wordMatcher stem opt repl p (c :: cs) = none := by
  unfold wordMatcher
  by_cases hp : p = true
  · rw [if_pos hp]
  · rw [if_neg hp]
    match stem, hne with
    | x :: xs, _ =>
      have hx : isWordChar x = true := hstem x (List.mem_cons_self _ _)
      have hcx : ¬(c = x) := by
        intro he
        have h2 : isWordChar c = false := word_space_disjoint hc
        rw [he] at h2
        rw [h2] at hx
        cases hx
      show (match dropPref (x :: xs) (c :: cs) with
        | some r1 => _ | none => none) = none
      unfold dropPref
      rw [if_neg hcx]

theorem wordMatcher_prev_true (stem : List Char) (opt : Bool)
    (repl : List Char) (l : List Char) :
    wordMatcher stem opt repl true l = none := rfl

theorem wm_scan_space_prev (stem : List Char) (hne : stem ≠ [])
    (opt : Bool) (repl : List Char)
    (hstem : ∀ c ∈ stem, isWordChar c = true) (p q : Bool) (l : List Char)
    (hl : l = [] ∨ ∃ s rs, l = s :: rs ∧ isSpaceChar s = true) :
    scanSub (wordMatcher stem opt repl) p l =
      scanSub (wordMatcher stem opt repl) q l := by
  rcases hl with rfl | ⟨s, rs, rfl, hs⟩
  · rfl
  · rw [scanSub_cons_none _ (wordMatcher_consumes stem hne opt repl)
        (wordMatcher_space_head stem opt repl hstem hne p s rs hs),
      scanSub_cons_none _ (wordMatcher_consumes stem hne opt repl)
        (wordMatcher_space_head stem opt repl hstem hne q s rs hs)]

theorem wm_scan_copy (stem : List Char) (hne : stem ≠ []) (opt : Bool)
    (repl : List Char) :
    ∀ (tok rest : List Char), (∀ c ∈ tok, isWordChar c = true) →
      scanSub (wordMatcher stem opt repl) true (tok ++ rest) =
        tok ++ scanSub (wordMatcher stem opt repl) true rest := by
  intro tok
  induction tok with
  | nil => intro rest _; rfl
  | cons c cs ih =>
    intro rest htok
    rw [List.cons_append,
      scanSub_cons_none _ (wordMatcher_consumes stem hne opt repl)
        (wordMatcher_prev_true stem opt repl _),
      htok c (List.mem_cons_self _ _),
      ih rest (fun d hd => htok d (List.mem_cons_of_mem _ hd)),
      List.cons_append]

/-! ### The word matcher at a token boundary -/

theorem wm_fire (stem : List Char) (opt : Bool) (repl : List Char)
    (tok rest : List Char)
    (hrest : rest = [] ∨ ∃ s rs, rest = s :: rs ∧ isSpaceChar s = true)
    (hfire : tok = stem ∨ (opt = true ∧ tok = stem ++ ['s'])) :
    wordMatcher stem opt repl false (tok ++ rest) = some (repl, true, rest) := by
  have hrb : atBoundary rest = true := by
    rcases hrest with rfl | ⟨s, rs, rfl, hs⟩
    · rfl
    · show (!isWordChar s) = true
      rw [word_space_disjoint hs]
      rfl
  unfold wordMatcher
  rw [if_neg (by simp : ¬(false = true))]
  rcases hfire with rfl | ⟨hopt, rfl⟩
  · simp only [dropPref_app]
    by_cases ho : opt = true
    · rw [if_pos ho]
      rcases hrest with rfl | ⟨s, rs, rfl, hs⟩
      · rfl
      · split
        · next r2 heq =>
          injection heq with h1 h2
          rw [h1] at hs
          exact absurd hs (by decide)
        · rw [if_pos hrb]
    · rw [if_neg ho, if_pos hrb]
  · rw [List.append_assoc]
    simp only [dropPref_app, List.cons_append, List.nil_append]
    rw [if_pos hopt, if_pos hrb]

theorem wm_nofire (stem : List Char) (opt : Bool) (repl : List Char)
    (tok rest : List Char)
    (hstem : ∀ c ∈ stem, isWordChar c = true)
    (htok : ∀ c ∈ tok, isWordChar c = true)
    (hrest : rest = [] ∨ ∃ s rs, rest = s :: rs ∧ isSpaceChar s = true)
    (hnf : ¬(tok = stem ∨ (opt = true ∧ tok = stem ++ ['s']))) :
    wordMatcher stem opt repl false (tok ++ rest) = none := by
  unfold wordMatcher
  rw [if_neg (by simp : ¬(false = true))]
  cases hdp : dropPref stem (tok ++ rest) with
  | none => rfl
  | some r1 =>
    have heq : tok ++ rest = stem ++ r1 := dropPref_eq_some stem _ r1 hdp
    have hp1 : stem <+: tok ++ rest := ⟨r1, heq.symm⟩
    have hp2 : tok <+: tok ++ rest := List.prefix_append tok rest
    rcases List.prefix_or_prefix_of_prefix hp1 hp2 with hst | hts
    · obtain ⟨u, hu⟩ := hst
      have hr1 : r1 = u ++ rest := by
        rw [← hu, List.append_assoc] at heq
        exact (List.append_cancel_left heq).symm
      subst hr1
      have hune : u ≠ [] := by
        rintro rfl
        rw [List.append_nil] at hu
        exact hnf (Or.inl hu.symm)
      match u, hune with
      | u0 :: u', _ =>
        simp only [List.cons_append]
        have hu0w : isWordChar u0 = true := by
          apply htok
          rw [← hu]
          exact List.mem_append_right _ (List.mem_cons_self _ _)
        have hb1 : ¬(atBoundary (u0 :: (u' ++ rest)) = true) := by
          show ¬((!isWordChar u0) = true)
          rw [hu0w]
          decide
        by_cases ho : opt = true
        · rw [if_pos ho]
          split
          · next r2 heq2 =>
            injection heq2 with h1 h2
            subst h2
            match u' with
            | [] =>
              refine absurd (Or.inr ⟨ho, ?_⟩) hnf
              rw [← hu, h1]
            | c' :: u'' =>
              have hc'w : isWordChar c' = true := by
                apply htok
                rw [← hu]
                exact List.mem_append_right _
                  (List.mem_cons_of_mem _ (List.mem_cons_self _ _))
              simp only [List.cons_append]
              simp only [List.cons_append] at hb1
              rw [if_neg (show ¬(atBoundary (c' :: (u'' ++ rest)) = true) by
                  show ¬((!isWordChar c') = true)
                  rw [hc'w]
                  decide),
                if_neg hb1]
          · rw [if_neg hb1]
        · rw [if_neg ho, if_neg hb1]
    · obtain ⟨v, hv⟩ := hts
      match v with
      | [] =>
        rw [List.append_nil] at hv
        exact absurd (Or.inl hv) hnf
      | v0 :: v' =>
        have hrv : rest = (v0 :: v') ++ r1 := by
          rw [← hv, List.append_assoc] at heq
          exact List.append_cancel_left heq
        have hv0w : isWordChar v0 = true := by
          apply hstem
          rw [← hv]
          exact List.mem_append_right _ (List.mem_cons_self _ _)
        rcases hrest with rfl | ⟨s, rs, hr, hs⟩
        · rw [List.cons_append] at hrv
          cases hrv
        · rw [hr, List.cons_append] at hrv
          injection hrv with h1 _
          rw [h1] at hs
          rw [word_space_disjoint hs] at hv0w
          cases hv0w

/-- The word-level substitution acts tokenwise on a string of word and
whitespace characters: the tokens of the output are the `tokF`-images of the
tokens of the input, with emptied tokens removed. -/
theorem wm_scan_tokens (stem : List Char) (opt : Bool) (repl : List Char)
    (hne : stem ≠ []) (hstem : ∀ c ∈ stem, isWordChar c = true)
    (hrepl : ∀ c ∈ repl, isSpaceChar c = false) :
    ∀ n (z : List Char), z.length ≤ n → wordSpace z →
      splitWs (scanSub (wordMatcher stem opt repl) false z) =
        ((splitWs z).map (tokF stem opt repl)).filter (fun t => !t.isEmpty) := by
  intro n
  induction n with
  | zero =>
    intro z hz _
    have : z = [] := List.length_eq_zero.mp (Nat.le_zero.mp hz)
    subst this
    rfl
  | succ n ih =>
    intro z hz hws
    match z with
    | [] => rfl
    | c :: cs =>
      simp only [List.length_cons] at hz
      have hwscs : wordSpace cs := fun d hd => hws d (List.mem_cons_of_mem _ hd)
      by_cases hc : isSpaceChar c = true
      · rw [scanSub_cons_none _ (wordMatcher_consumes stem hne opt repl)
            (wordMatcher_space_head stem opt repl hstem hne false c cs hc),
          splitWs_cons_space _ hc, word_space_disjoint hc,
          splitWs_cons_space _ hc]
        exact ih cs (by omega) hwscs
      · have hcf : isSpaceChar c = false := by
          cases hx : isSpaceChar c with
          | true => exact absurd hx hc
          | false => rfl
        have hcw : isWordChar c = true := by
          rcases hws c (List.mem_cons_self _ _) with h | h
          · exact h
          · exact absurd h hc
        have htokw : ∀ d ∈ c :: cs.takeWhile (fun x => !isSpaceChar x),
            isWordChar d = true := by
          intro d hd
          rcases List.mem_cons.mp hd with rfl | hd
          · exact hcw
          · have h1 := List.mem_takeWhile_imp hd
            have h2 : d ∈ cs := (List.takeWhile_prefix _).sublist.mem hd
            rcases hwscs d h2 with h | h
            · exact h
            · rw [h] at h1; cases h1
        have hrest : cs.dropWhile (fun x => !isSpaceChar x) = [] ∨
            ∃ s rs, cs.dropWhile (fun x => !isSpaceChar x) = s :: rs ∧
              isSpaceChar s = true := by
          cases hdw : cs.dropWhile (fun x => !isSpaceChar x) with
          | nil => exact Or.inl rfl
          | cons s rs =>
            refine Or.inr ⟨s, rs, rfl, ?_⟩
            have h1 := dropWhile_head_not cs s rs hdw
            cases hx : isSpaceChar s with
            | true => rfl
            | false => rw [hx] at h1; cases h1
        have hwsrest : wordSpace (cs.dropWhile (fun x => !isSpaceChar x)) :=
          fun d hd => hwscs d ((List.dropWhile_suffix _).mem hd)
        have hrlen := dropWhile_len_le (fun x => !isSpaceChar x) cs
        have hz2 : (c :: cs.takeWhile (fun x => !isSpaceChar x)) ++
            cs.dropWhile (fun x => !isSpaceChar x) = c :: cs := by
          rw [List.cons_append, List.takeWhile_append_dropWhile]
        have hscanrest : scanSub (wordMatcher stem opt repl) false
              (cs.dropWhile (fun x => !isSpaceChar x)) = [] ∨
            ∃ s rs', scanSub (wordMatcher stem opt repl) false
              (cs.dropWhile (fun x => !isSpaceChar x)) = s :: rs' ∧
              isSpaceChar s = true := by
          rcases hrest with h0 | ⟨s, rs, h0, hs⟩
          · rw [h0]; exact Or.inl rfl
          · rw [h0, scanSub_cons_none _ (wordMatcher_consumes stem hne opt repl)
                (wordMatcher_space_head stem opt repl hstem hne false s rs hs)]
            exact Or.inr ⟨s, _, rfl, hs⟩
        by_cases hfire : (c :: cs.takeWhile (fun x => !isSpaceChar x)) = stem ∨
            (opt = true ∧ (c :: cs.takeWhile (fun x => !isSpaceChar x)) =
              stem ++ ['s'])
        · have hm := wm_fire stem opt repl _ _ hrest hfire
          rw [hz2] at hm
          rw [scanSub_cons_some _ (wordMatcher_consumes stem hne opt repl) hm,
            wm_scan_space_prev stem hne opt repl hstem true false _ hrest,
            splitWs_cons_word cs hcf, List.map_cons, List.filter_cons]
          have htf : tokF stem opt repl
              (c :: cs.takeWhile (fun x => !isSpaceChar x)) = repl := by
            unfold tokF
            rw [if_pos hfire]
          rw [htf]
          by_cases hre : repl = []
          · subst hre
            rw [List.nil_append, if_neg (by decide)]
            exact ih _ (by omega) hwsrest
          · rw [splitWs_append_word _ _ hre hrepl hscanrest,
              if_pos (by
                match repl, hre with
                | r0 :: rs0, _ => rfl),
              ih _ (by omega) hwsrest]
        · have hm := wm_nofire stem opt repl _ _ hstem htokw hrest hfire
          rw [hz2] at hm
          rw [scanSub_cons_none _ (wordMatcher_consumes stem hne opt repl) hm,
            hcw]
          have hL1 : scanSub (wordMatcher stem opt repl) true cs =
              cs.takeWhile (fun x => !isSpaceChar x) ++
                scanSub (wordMatcher stem opt repl) true
                  (cs.dropWhile (fun x => !isSpaceChar x)) := by
            conv_lhs =>
              rw [← List.takeWhile_append_dropWhile (fun x => !isSpaceChar x) cs]
            exact wm_scan_copy stem hne opt repl _ _
              (fun d hd => htokw d (List.mem_cons_of_mem _ hd))
          rw [hL1,
            wm_scan_space_prev stem hne opt repl hstem true false _ hrest,
            ← List.cons_append,
            splitWs_append_word _ _ (List.cons_ne_nil _ _)
              (fun d hd => space_of_not_word (htokw d hd)) hscanrest,
            splitWs_cons_word cs hcf, List.map_cons, List.filter_cons]
          have htf : tokF stem opt repl
              (c :: cs.takeWhile (fun x => !isSpaceChar x)) =
              c :: cs.takeWhile (fun x => !isSpaceChar x) := by
            unfold tokF
            rw [if_neg hfire]
          rw [htf,
            if_pos (show (!(c :: cs.takeWhile
              (fun x => !isSpaceChar x)).isEmpty) = true from rfl),
            ih _ (by omega) hwsrest]

/-- A word substitution passes over a token it leaves fixed. -/
theorem wm_scan_tok_id (stem : List Char) (hne : stem ≠ [])
    (opt : Bool) (repl : List Char)
    (hstem : ∀ c ∈ stem, isWordChar c = true)
    (t v : List Char) (ht1 : t ≠ []) (ht2 : ∀ c ∈ t, isWordChar c = true)
    (ht3 : tokF stem opt repl t = t)
    (hv : v = [] ∨ ∃ s rs, v = s :: rs ∧ isSpaceChar s = true) :
    scanSub (wordMatcher stem opt repl) false (t ++ v) =
      t ++ scanSub (wordMatcher stem opt repl) false v := by
  by_cases hcond : t = stem ∨ (opt = true ∧ t = stem ++ ['s'])
  · have hrt : repl = t := by
      unfold tokF at ht3
      rw [if_pos hcond] at ht3
      exact ht3
    have hm := wm_fire stem opt repl t v hv hcond
    match t, ht1, ht2, hm, hrt with
    | c :: t', _, ht2, hm, hrt =>
      rw [List.cons_append] at hm
      rw [List.cons_append,
        scanSub_cons_some _ (wordMatcher_consumes stem hne opt repl) hm,
        wm_scan_space_prev stem hne opt repl hstem true false _ hv,
        hrt]
  · have hm := wm_nofire stem opt repl t v hstem ht2 hv hcond
    match t, ht1, ht2, hm with
    | c :: t', _, ht2, hm =>
      rw [List.cons_append] at hm
      rw [List.cons_append,
        scanSub_cons_none _ (wordMatcher_consumes stem hne opt repl) hm,
        ht2 c (List.mem_cons_self _ _),
        wm_scan_copy stem hne opt repl t' v
          (fun d hd => ht2 d (List.mem_cons_of_mem _ hd)),
        wm_scan_space_prev stem hne opt repl hstem true false _ hv,
        List.cons_append]

/-- A word substitution is the identity on a space-joined list of tokens it
leaves fixed. -/
theorem wm_scan_join_id (stem : List Char) (hne : stem ≠ [])
    (opt : Bool) (repl : List Char)
    (hstem : ∀ c ∈ stem, isWordChar c = true) :
    ∀ T : List (List Char),
      (∀ t ∈ T, t ≠ [] ∧ (∀ c ∈ t, isWordChar c = true) ∧
        tokF stem opt repl t = t) →
      scanSub (wordMatcher stem opt repl) false (joinSpace T) =
        joinSpace T := by
  intro T
  induction T with
  | nil => intro _; rfl
  | cons t ts ih =>
    intro hT
    obtain ⟨ht1, ht2, ht3⟩ := hT t (List.mem_cons_self _ _)
    match ts with
    | [] =>
      show scanSub (wordMatcher stem opt repl) false t = t
      have h0 := wm_scan_tok_id stem hne opt repl hstem t [] ht1 ht2 ht3
        (Or.inl rfl)
      rw [List.append_nil] at h0
      rw [h0, scanSub_nil, List.append_nil]
    | t2 :: ts' =>
      show scanSub (wordMatcher stem opt repl) false
        (t ++ ' ' :: joinSpace (t2 :: ts')) = t ++ ' ' :: joinSpace (t2 :: ts')
      rw [wm_scan_tok_id stem hne opt repl hstem t (' ' :: joinSpace (t2 :: ts'))
          ht1 ht2 ht3 (Or.inr ⟨' ', _, rfl, by decide⟩),
        scanSub_cons_none _ (wordMatcher_consumes stem hne opt repl)
          (wordMatcher_space_head stem opt repl hstem hne false ' ' _ (by decide)),
        (by decide : isWordChar ' ' = false),
        ih (fun s hs => hT s (List.mem_cons_of_mem _ hs))]

/-! ### Tidy strings: collapsing and stripping are the identity -/

theorem tidy_tidyMid {y : List Char} (h : tidy y) : tidyMid y :=
  ⟨h.1, h.2.1, h.2.2.2⟩

theorem tidyMid_tail {c : Char} {cs : List Char} (h : tidyMid (c :: cs)) :
    tidyMid cs := by
  obtain ⟨h1, h2, h3⟩ := h
  refine ⟨fun d hd hsp => h1 d (List.mem_cons_of_mem _ hd) hsp,
    (List.chain'_cons'.mp h2).2, ?_⟩
  intro d hd
  apply h3
  match cs, hd with
  | e :: cs', hd => rw [List.getLast?_cons_cons]; exact hd

theorem collapseWs_id_of_tidyMid :
    ∀ n (y : List Char), y.length ≤ n → tidyMid y → collapseWs y = y := by
  intro n
  induction n with
  | zero =>
    intro y hy _
    have : y = [] := List.length_eq_zero.mp (Nat.le_zero.mp hy)
    subst this
    rfl
  | succ n ih =>
    intro y hy hty
    match y with
    | [] => rfl
    | c :: cs =>
      simp only [List.length_cons] at hy
      obtain ⟨h1, h2, h3⟩ := hty
      by_cases hc : isSpaceChar c = true
      · have hcsp : c = ' ' := h1 c (List.mem_cons_self _ _) hc
        match cs with
        | [] =>
          have h4 := h3 c rfl
          rw [h4] at hc
          cases hc
        | d :: cs' =>
          have hcd : ¬(isSpaceChar c = true ∧ isSpaceChar d = true) :=
            (List.chain'_cons.mp h2).1
          have hds : isSpaceChar d = false := by
            cases hx : isSpaceChar d with
            | true => exact absurd ⟨hc, hx⟩ hcd
            | false => rfl
          rw [collapseWs_cons_space _ hc, hcsp,
            List.dropWhile_cons, if_neg (by simp [hds]),
            ih (d :: cs') (by omega) (tidyMid_tail ⟨h1, h2, h3⟩)]
      · have hcf : isSpaceChar c = false := by
          cases hx : isSpaceChar c with
          | true => exact absurd hx hc
          | false => rfl
        rw [collapseWs_cons_word _ hcf,
          ih cs (by omega) (tidyMid_tail ⟨h1, h2, h3⟩)]

theorem stripWs_id_of_tidy {y : List Char} (h : tidy y) : stripWs y = y := by
  obtain ⟨h1, h2, h3, h4⟩ := h
  unfold stripWs
  have hd1 : y.dropWhile isSpaceChar = y := by
    match y with
    | [] => rfl
    | c :: cs =>
      rw [List.dropWhile_cons, if_neg (by simp [h3 c rfl])]
  rw [hd1]
  have hd2 : y.reverse.dropWhile isSpaceChar = y.reverse := by
    cases hy : y.reverse with
    | nil => rfl
    | cons c cs =>
      have h5 : y.getLast? = some c := by
        rw [← List.head?_reverse, hy]
        rfl
      rw [List.dropWhile_cons, if_neg (by simp [h4 c h5])]
  rw [hd2, List.reverse_reverse]

theorem chain'_nospace :
    ∀ (t : List Char), (∀ c ∈ t, isSpaceChar c = false) →
      List.Chain' (fun a b => ¬(isSpaceChar a = true ∧ isSpaceChar b = true))
        t := by
  intro t
  induction t with
  | nil => intro _; exact List.chain'_nil
  | cons a l ih =>
    intro h
    rw [List.chain'_cons']
    refine ⟨fun b _ => ?_, ih (fun c hc => h c (List.mem_cons_of_mem _ hc))⟩
    rintro ⟨ha, _⟩
    rw [h a (List.mem_cons_self _ _)] at ha
    cases ha

theorem tidy_of_nospace {t : List Char}
    (h : ∀ c ∈ t, isSpaceChar c = false) : tidy t := by
  refine ⟨fun c hc hsp => ?_, chain'_nospace t h, fun c hc => ?_, fun c hc => ?_⟩
  · rw [h c hc] at hsp
    cases hsp
  · exact h c (List.mem_of_mem_head? (by rw [hc]; rfl))
  · exact h c (List.mem_of_mem_getLast? (by rw [hc]; rfl))

theorem joinSpace_ne_nil (t2 : List Char) (ts' : List (List Char))
    (h : t2 ≠ []) : joinSpace (t2 :: ts') ≠ [] := by
  match ts' with
  | [] => exact h
  | t3 :: ts'' =>
    show t2 ++ ' ' :: joinSpace (t3 :: ts'') ≠ []
    simp

theorem joinSpace_head_mem (t2 : List Char) (ts' : List (List Char))
    (h2 : t2 ≠ []) (c : Char)
    (hc : (joinSpace (t2 :: ts')).head? = some c) : c ∈ t2 := by
  match ts' with
  | [] =>
    have hc2 : t2.head? = some c := hc
    exact List.mem_of_mem_head? (by rw [hc2]; rfl)
  | t3 :: ts'' =>
    have hj : joinSpace (t2 :: t3 :: ts'') =
        t2 ++ ' ' :: joinSpace (t3 :: ts'') := rfl
    rw [hj, List.head?_append] at hc
    match t2, h2, hc with
    | d :: t2', _, hc =>
      have hc2 : some d = some c := hc
      cases hc2
      exact List.mem_cons_self _ _

theorem getLast?_cons_ne (c : Char) (l : List Char) (h : l ≠ []) :
    (c :: l).getLast? = l.getLast? := by
  match l, h with
  | d :: l', _ => exact List.getLast?_cons_cons

theorem tidy_joinSpace :
    ∀ T : List (List Char),
      (∀ t ∈ T, t ≠ [] ∧ ∀ c ∈ t, isSpaceChar c = false) →
      tidy (joinSpace T) := by
  intro T
  induction T with
  | nil =>
    intro _
    refine ⟨fun c hc => absurd hc (List.not_mem_nil c), List.chain'_nil,
      ?_, ?_⟩
    · intro c hc
      cases hc
    · intro c hc
      cases hc
  | cons t ts ih =>
    intro hT
    obtain ⟨ht1, ht2⟩ := hT t (List.mem_cons_self _ _)
    match ts with
    | [] => exact tidy_of_nospace ht2
    | t2 :: ts' =>
      obtain ⟨ht21, ht22⟩ :=
        hT t2 (List.mem_cons_of_mem _ (List.mem_cons_self _ _))
      obtain ⟨i1, i2, i3, i4⟩ :=
        ih (fun s hs => hT s (List.mem_cons_of_mem _ hs))
      have hjne : joinSpace (t2 :: ts') ≠ [] := joinSpace_ne_nil t2 ts' ht21
      show tidy (t ++ ' ' :: joinSpace (t2 :: ts'))
      refine ⟨?_, ?_, ?_, ?_⟩
      · intro c hc hsp
        rcases List.mem_append.mp hc with hct | hcr
        · rw [ht2 c hct] at hsp
          cases hsp
        · rcases List.mem_cons.mp hcr with rfl | hcj
          · rfl
          · exact i1 c hcj hsp
      · rw [List.chain'_append]
        refine ⟨chain'_nospace t ht2, ?_, ?_⟩
        · rw [List.chain'_cons']
          refine ⟨?_, i2⟩
          intro b hb
          rintro ⟨_, hbs⟩
          have hbm : b ∈ t2 := joinSpace_head_mem t2 ts' ht21 b hb
          rw [ht22 b hbm] at hbs
          cases hbs
        · intro a ha b hb
          rintro ⟨has, _⟩
          have ham : a ∈ t := List.mem_of_mem_getLast? ha
          rw [ht2 a ham] at has
          cases has
      · intro c hc
        rw [List.head?_append] at hc
        match t, ht1, hc with
        | d :: t', _, hc =>
          have hc2 : some d = some c := hc
          cases hc2
          exact ht2 _ (List.mem_cons_self _ _)
      · intro c hc
        rw [List.getLast?_append, getLast?_cons_ne ' ' _ hjne] at hc
        cases hj : (joinSpace (t2 :: ts')).getLast? with
        | none =>
          rw [hj] at hc
          have hc2 : t.getLast? = some c := hc
          exact ht2 c (List.mem_of_mem_getLast? (by rw [hc2]; rfl))
        | some e =>
          rw [hj] at hc
          have hc2 : some e = some c := hc
          cases hc2
          exact i4 c hj

/-! ### The collapse-strip normal form is tidy -/

theorem mem_stripWs {c : Char} {l : List Char} (h : c ∈ stripWs l) : c ∈ l := by
  unfold stripWs at h
  rw [List.mem_reverse] at h
  have h1 : c ∈ (l.dropWhile isSpaceChar).reverse :=
    (List.dropWhile_suffix isSpaceChar).mem h
  rw [List.mem_reverse] at h1
  exact (List.dropWhile_suffix isSpaceChar).mem h1

theorem stripWs_within (l : List Char) : stripWs l <:+: l := by
  unfold stripWs
  have h1 : ((l.dropWhile isSpaceChar).reverse.dropWhile isSpaceChar).reverse <+:
      l.dropWhile isSpaceChar := by
    conv_rhs => rw [← List.reverse_reverse (l.dropWhile isSpaceChar)]
    exact List.reverse_prefix.mpr (List.dropWhile_suffix isSpaceChar)
  exact h1.isInfix.trans (List.dropWhile_suffix isSpaceChar).isInfix

theorem suffix_getLast {X Y : List Char} (h : X <:+ Y) (hne : X ≠ []) :
    Y.getLast? = X.getLast? := by
  obtain ⟨t, rfl⟩ := h
  rw [List.getLast?_append]
  cases hg : X.getLast? with
  | none => exact absurd (List.getLast?_eq_none_iff.mp hg) hne
  | some e => rfl

theorem stripWs_head {w : List Char} {c : Char}
    (hc : (stripWs w).head? = some c) : isSpaceChar c = false := by
  unfold stripWs at hc
  rw [List.head?_reverse] at hc
  have hne : (w.dropWhile isSpaceChar).reverse.dropWhile isSpaceChar ≠ [] := by
    intro h0
    rw [h0] at hc
    cases hc
  have h2 := suffix_getLast
    (@List.dropWhile_suffix Char ((w.dropWhile isSpaceChar).reverse)
      isSpaceChar) hne
  rw [hc, List.getLast?_reverse] at h2
  cases hw : w.dropWhile isSpaceChar with
  | nil => rw [hw] at h2; cases h2
  | cons d rs =>
    rw [hw] at h2
    have h3 : some d = some c := h2
    cases h3
    exact dropWhile_head_not w _ _ hw

theorem stripWs_last {w : List Char} {c : Char}
    (hc : (stripWs w).getLast? = some c) : isSpaceChar c = false := by
  unfold stripWs at hc
  rw [List.getLast?_reverse] at hc
  cases hw : (w.dropWhile isSpaceChar).reverse.dropWhile isSpaceChar with
  | nil => rw [hw] at hc; cases hc
  | cons d rs =>
    rw [hw] at hc
    have h3 : some d = some c := hc
    cases h3
    exact dropWhile_head_not _ _ _ hw

theorem mem_collapseWs :
    ∀ n (z : List Char), z.length ≤ n →
      ∀ c ∈ collapseWs z, c ∈ z ∨ c = ' ' := by
  intro n
  induction n with
  | zero =>
    intro z hz c hc
    have : z = [] := List.length_eq_zero.mp (Nat.le_zero.mp hz)
    subst this
    cases hc
  | succ n ih =>
    intro z hz c hc
    match z with
    | [] => cases hc
    | d :: cs =>
      simp only [List.length_cons] at hz
      by_cases hd : isSpaceChar d = true
      · rw [collapseWs_cons_space _ hd] at hc
        rcases List.mem_cons.mp hc with rfl | hc
        · exact Or.inr rfl
        · have hlen := dropWhile_len_le isSpaceChar cs
          rcases ih _ (by omega) c hc with h | h
          · exact Or.inl (List.mem_cons_of_mem _
              ((List.dropWhile_suffix isSpaceChar).mem h))
          · exact Or.inr h
      · have hdf : isSpaceChar d = false := by
          cases hx : isSpaceChar d with
          | true => exact absurd hx hd
          | false => rfl
        rw [collapseWs_cons_word _ hdf] at hc
        rcases List.mem_cons.mp hc with rfl | hc
        · exact Or.inl (List.mem_cons_self _ _)
        · rcases ih cs (by omega) c hc with h | h
          · exact Or.inl (List.mem_cons_of_mem _ h)
          · exact Or.inr h

theorem collapseWs_head (z : List Char) :
    (collapseWs z).head? =
      z.head?.map (fun c => if isSpaceChar c = true then ' ' else c) := by
  match z with
  | [] => rfl
  | c :: cs =>
    by_cases hc : isSpaceChar c = true
    · rw [collapseWs_cons_space _ hc]
      simp [hc]
    · have hcf : isSpaceChar c = false := by
        cases hx : isSpaceChar c with
        | true => exact absurd hx hc
        | false => rfl
      rw [collapseWs_cons_word _ hcf]
      simp [hcf]

theorem collapseWs_spaces :
    ∀ n (z : List Char), z.length ≤ n →
      ∀ c ∈ collapseWs z, isSpaceChar c = true → c = ' ' := by
  intro n
  induction n with
  | zero =>
    intro z hz c hc _
    have : z = [] := List.length_eq_zero.mp (Nat.le_zero.mp hz)
    subst this
    cases hc
  | succ n ih =>
    intro z hz c hc hsp
    match z with
    | [] => cases hc
    | d :: cs =>
      simp only [List.length_cons] at hz
      by_cases hd : isSpaceChar d = true
      · rw [collapseWs_cons_space _ hd] at hc
        rcases List.mem_cons.mp hc with rfl | hc
        · rfl
        · have hlen := dropWhile_len_le isSpaceChar cs
          exact ih _ (by omega) c hc hsp
      · have hdf : isSpaceChar d = false := by
          cases hx : isSpaceChar d with
          | true => exact absurd hx hd
          | false => rfl
        rw [collapseWs_cons_word _ hdf] at hc
        rcases List.mem_cons.mp hc with rfl | hc
        · rw [hdf] at hsp
          cases hsp
        · exact ih cs (by omega) c hc hsp

theorem collapseWs_chain :
    ∀ n (z : List Char), z.length ≤ n →
      List.Chain' (fun a b => ¬(isSpaceChar a = true ∧ isSpaceChar b = true))
        (collapseWs z) := by
  intro n
  induction n with
  | zero =>
    intro z hz
    have : z = [] := List.length_eq_zero.mp (Nat.le_zero.mp hz)
    subst this
    exact List.chain'_nil
  | succ n ih =>
    intro z hz
    match z with
    | [] => exact List.chain'_nil
    | d :: cs =>
      simp only [List.length_cons] at hz
      by_cases hd : isSpaceChar d = true
      · rw [collapseWs_cons_space _ hd]
        rw [List.chain'_cons']
        have hlen := dropWhile_len_le isSpaceChar cs
        refine ⟨?_, ih _ (by omega)⟩
        intro b hb
        rintro ⟨_, hbs⟩
        rw [collapseWs_head] at hb
        cases hw : (cs.dropWhile isSpaceChar).head? with
        | none => rw [hw] at hb; cases hb
        | some e =>
          rw [hw] at hb
          have he : isSpaceChar e = false := by
            match hcs : cs.dropWhile isSpaceChar, hw with
            | e2 :: rs, hw =>
              have h3 : some e2 = some e := hw
              cases h3
              exact dropWhile_head_not cs e rs hcs
          have hb2 : some (if isSpaceChar e = true then ' ' else e) = some b :=
            hb
          rw [he] at hb2
          simp only [Bool.false_eq_true, if_false, Option.some.injEq] at hb2
          subst hb2
          rw [he] at hbs
          cases hbs
      · have hdf : isSpaceChar d = false := by
          cases hx : isSpaceChar d with
          | true => exact absurd hx hd
          | false => rfl
        rw [collapseWs_cons_word _ hdf]
        rw [List.chain'_cons']
        refine ⟨?_, ih cs (by omega)⟩
        intro b _
        rintro ⟨hds, _⟩
        rw [hdf] at hds
        cases hds

theorem tidy_strip_collapse (z : List Char) :
    tidy (stripWs (collapseWs z)) := by
  refine ⟨?_, ?_, ?_, ?_⟩
  · intro c hc hsp
    exact collapseWs_spaces _ z (le_refl _) c (mem_stripWs hc) hsp
  · exact List.Chain'.infix (collapseWs_chain _ z (le_refl _))
      (stripWs_within _)
  · intro c hc
    exact stripWs_head hc
  · intro c hc
    exact stripWs_last hc

/-! ### Lowercasing -/

theorem ofNat_toNat_small {n : Nat} (h : n < 55296) :
    (Char.ofNat n).toNat = n := by
  unfold Char.ofNat
  rw [dif_pos (Or.inl h)]
  rfl

theorem uint32_le_toNat {a b : UInt32} : a ≤ b ↔ a.toNat ≤ b.toNat := by
  rw [UInt32.le_def, BitVec.le_def]
  exact Iff.rfl

theorem isUpper_toNat {c : Char} (h : c.isUpper = true) :
    65 ≤ c.toNat ∧ c.toNat ≤ 90 := by
  simp only [Char.isUpper, Bool.and_eq_true, decide_eq_true_eq] at h
  obtain ⟨h1, h2⟩ := h
  exact ⟨uint32_le_toNat.mp h1, uint32_le_toNat.mp h2⟩

theorem isDigit_toNat {c : Char} (h : c.isDigit = true) :
    48 ≤ c.toNat ∧ c.toNat ≤ 57 := by
  simp only [Char.isDigit, Bool.and_eq_true, decide_eq_true_eq] at h
  obtain ⟨h1, h2⟩ := h
  exact ⟨uint32_le_toNat.mp h1, uint32_le_toNat.mp h2⟩

theorem isUpper_false_of_toNat {c : Char}
    (h : 90 < c.toNat ∨ c.toNat < 65) : c.isUpper = false := by
  cases hx : c.isUpper with
  | false => rfl
  | true =>
    obtain ⟨h1, h2⟩ := isUpper_toNat hx
    rcases h with h | h <;> omega

theorem lowerChar_of_not_upper {c : Char} (h : c.isUpper = false) :
    lowerChar c = c := by
  unfold lowerChar
  rw [if_neg (by simp [h])]

theorem lowerChar_toNat_of_upper {c : Char} (h : c.isUpper = true) :
    (lowerChar c).toNat = c.toNat + 32 := by
  unfold lowerChar
  rw [if_pos h]
  have h2 := (isUpper_toNat h).2
  exact ofNat_toNat_small (by omega)

theorem lowerChar_idem (c : Char) : lowerChar (lowerChar c) = lowerChar c := by
  by_cases h : c.isUpper = true
  · have h1 := isUpper_toNat h
    have h2 := lowerChar_toNat_of_upper h
    have h3 : (lowerChar c).isUpper = false := by
      apply isUpper_false_of_toNat
      left
      omega
    exact lowerChar_of_not_upper h3
  · have h3 : lowerChar c = c := lowerChar_of_not_upper (by
      cases hx : c.isUpper with
      | true => exact absurd hx h
      | false => rfl)
    rw [h3, h3]

theorem lowerChar_eq_of_range {c d : Char}
    (hd : d.toNat < 97 ∨ 122 < d.toNat) (h : lowerChar c = d) : c = d := by
  by_cases hu : c.isUpper = true
  · exfalso
    have h1 := isUpper_toNat hu
    have h2 := lowerChar_toNat_of_upper hu
    rw [h] at h2
    omega
  · rw [lowerChar_of_not_upper (by
      cases hx : c.isUpper with
      | true => exact absurd hx hu
      | false => rfl)] at h
    exact h

theorem isSpaceChar_toNat {c : Char} (h : isSpaceChar c = true) :
    c.toNat = 32 ∨ c.toNat = 9 ∨ c.toNat = 10 ∨ c.toNat = 13 ∨
    c.toNat = 11 ∨ c.toNat = 12 ∨ c.toNat = 160 := by
  simp only [isSpaceChar, Bool.or_eq_true, decide_eq_true_eq] at h
  rcases h with (((((h | h) | h) | h) | h) | h) | h <;> subst h <;> decide

theorem isSpaceChar_lowerChar (c : Char) :
    isSpaceChar (lowerChar c) = isSpaceChar c := by
  by_cases hu : c.isUpper = true
  · have h1 := isUpper_toNat hu
    have h2 := lowerChar_toNat_of_upper hu
    have ha : isSpaceChar (lowerChar c) = false := by
      cases hx : isSpaceChar (lowerChar c) with
      | false => rfl
      | true =>
        have h3 := isSpaceChar_toNat hx
        omega
    have hb : isSpaceChar c = false := by
      cases hx : isSpaceChar c with
      | false => rfl
      | true =>
        have h3 := isSpaceChar_toNat hx
        omega
    rw [ha, hb]
  · rw [lowerChar_of_not_upper (by
      cases hx : c.isUpper with
      | true => exact absurd hx hu
      | false => rfl)]

theorem digit_lower_word {c : Char} (h : c.isDigit = true) :
    lowerChar c = c ∧ isWordChar c = true := by
  constructor
  · apply lowerChar_of_not_upper
    apply isUpper_false_of_toNat
    have := isDigit_toNat h
    right
    omega
  · simp [isWordChar, Char.isAlphanum, h]

theorem tidy_lowerStr {w : List Char} (h : tidy w) : tidy (lowerStr w) := by
  obtain ⟨h1, h2, h3, h4⟩ := h
  refine ⟨?_, ?_, ?_, ?_⟩
  · intro c hc hsp
    rcases List.mem_map.mp hc with ⟨a, ha, rfl⟩
    rw [isSpaceChar_lowerChar] at hsp
    rw [h1 a ha hsp]
    decide
  · rw [lowerStr, List.chain'_map]
    refine List.Chain'.imp ?_ h2
    intro a b hab hab2
    obtain ⟨ha', hb'⟩ := hab2
    rw [isSpaceChar_lowerChar] at ha' hb'
    exact hab ⟨ha', hb'⟩
  · intro c hc
    rw [lowerStr, List.head?_map] at hc
    cases hw : w.head? with
    | none => rw [hw] at hc; cases hc
    | some d =>
      rw [hw] at hc
      have hc2 : some (lowerChar d) = some c := hc
      cases hc2
      rw [isSpaceChar_lowerChar]
      exact h3 d hw
  · intro c hc
    rw [lowerStr, List.getLast?_map] at hc
    cases hw : w.getLast? with
    | none => rw [hw] at hc; cases hc
    | some d =>
      rw [hw] at hc
      have hc2 : some (lowerChar d) = some c := hc
      cases hc2
      rw [isSpaceChar_lowerChar]
      exact h4 d hw

/-! ### What the matchers can emit -/

theorem pctMatcher_repl : ReplChars pctMatcher (fun _ => False) := by
  intro prev l r np rest hm c hc
  unfold pctMatcher at hm
  split at hm
  · next r1 =>
    split at hm
    · next r3 hd2 =>
      split at hm
      · next r4 =>
        split at hm
        · next r5 hd4 =>
          split at hm
          · next r6 =>
            cases hm
            cases hc
          · cases hm
        · cases hm
      · cases hm
    · cases hm
  · cases hm

theorem dashColonMatcher_repl (dashes repl : List Char) :
    ReplChars (dashColonMatcher dashes repl) (fun c => c ∈ repl) := by
  intro prev l r np rest hm c hc
  unfold dashColonMatcher at hm
  split at hm
  · next d r1 =>
    by_cases hd : d ∈ dashes
    · rw [if_pos hd] at hm
      split at hm
      · next r3 heq =>
        cases hm
        exact hc
      · cases hm
    · rw [if_neg hd] at hm
      cases hm
  · cases hm

theorem colonMatcher_repl : ReplChars colonMatcher (fun c => c = ' ') := by
  intro prev l r np rest hm c hc
  unfold colonMatcher at hm
  split at hm
  · next r3 heq =>
    cases hm
    rcases List.mem_cons.mp hc with rfl | hc
    · rfl
    · cases hc
  · cases hm

theorem commaMatcher_repl :
    ReplChars commaMatcher (fun c => c.isDigit = true) := by
  intro prev l r np rest hm c hc
  unfold commaMatcher at hm
  split at hm
  · next a b r2 =>
    by_cases hab : a.isDigit && b.isDigit
    · rw [if_pos hab] at hm
      cases hm
      simp only [Bool.and_eq_true] at hab
      rcases List.mem_cons.mp hc with rfl | hc
      · exact hab.1
      · rcases List.mem_cons.mp hc with rfl | hc
        · exact hab.2
        · cases hc
    · rw [if_neg hab] at hm
      cases hm
  · cases hm

theorem wordMatcher_repl (stem : List Char) (opt : Bool) (repl : List Char) :
    ReplChars (wordMatcher stem opt repl) (fun c => c ∈ repl) := by
  intro prev l r np rest hm c hc
  unfold wordMatcher at hm
  by_cases hp : prev = true
  · rw [if_pos hp] at hm
    cases hm
  · rw [if_neg hp] at hm
    split at hm
    · next r1 hdp =>
      by_cases ho : opt = true
      · rw [if_pos ho] at hm
        split at hm
        · next r2 =>
          by_cases hb : atBoundary r2 = true
          · rw [if_pos hb] at hm
            cases hm
            exact hc
          · rw [if_neg hb] at hm
            by_cases hb1 : atBoundary ('s' :: r2) = true
            · rw [if_pos hb1] at hm
              cases hm
              exact hc
            · rw [if_neg hb1] at hm
              cases hm
        · by_cases hb : atBoundary r1 = true
          · rw [if_pos hb] at hm
            cases hm
            exact hc
          · rw [if_neg hb] at hm
            cases hm
      · rw [if_neg ho] at hm
        by_cases hb : atBoundary r1 = true
        · rw [if_pos hb] at hm
          cases hm
          exact hc
        · rw [if_neg hb] at hm
          cases hm
    · cases hm

/-! ### The unit/verb canonical map and the word-level substitutions -/

theorem assocFind_mem :
    ∀ (ps : List (List Char × List Char)) (w v : List Char),
      assocFind ps w = some v → (w, v) ∈ ps := by
  intro ps
  induction ps with
  | nil => intro w v h; cases h
  | cons kv ps ih =>
    intro w v h
    obtain ⟨k, v'⟩ := kv
    unfold assocFind at h
    by_cases hk : w = k
    · rw [if_pos hk] at h
      cases h
      rw [hk]
      exact List.mem_cons_self _ _
    · rw [if_neg hk] at h
      exact List.mem_cons_of_mem _ (ih w v h)

theorem canonValues_facts :
    ∀ v ∈ canonValues, canonWord v = v ∧ v ∉ changers ∧ v ≠ [] ∧
      ∀ c ∈ v, isWordChar c = true ∧ lowerChar c = c ∧
        isSpaceChar c = false := by
  decide

theorem canonWord_cases (t : List Char) :
    canonWord t = t ∨ canonWord t ∈ canonValues := by
  unfold canonWord
  cases h1 : assocFind unitCanon t with
  | some v =>
    right
    have h2 := assocFind_mem unitCanon t v h1
    exact List.mem_append_left _ (List.mem_map_of_mem Prod.snd h2)
  | none =>
    cases h2 : assocFind verbCanon t with
    | some v =>
      right
      have h3 := assocFind_mem verbCanon t v h2
      exact List.mem_append_right _ (List.mem_map_of_mem Prod.snd h3)
    | none =>
      left
      rfl

theorem canonWord_idem (t : List Char) :
    canonWord (canonWord t) = canonWord t := by
  rcases canonWord_cases t with h | h
  · rw [h]
    exact h
  · exact (canonValues_facts (canonWord t) h).1

theorem tokF_cases (stem : List Char) (opt : Bool) (repl t : List Char) :
    tokF stem opt repl t = repl ∨
    (tokF stem opt repl t = t ∧
      ¬(t = stem ∨ (opt = true ∧ t = stem ++ ['s']))) := by
  unfold tokF
  by_cases h : t = stem ∨ (opt = true ∧ t = stem ++ ['s'])
  · left
    rw [if_pos h]
  · right
    rw [if_neg h]
    exact ⟨rfl, h⟩

theorem tokF_fixed_of_badFree (t : List Char) (hbf : t ∉ changers) :
    tokF "ltd".data false [] t = t ∧
    tokF "limited".data false [] t = t ∧
    tokF "crore".data true "crore".data t = t ∧
    tokF "ncd".data true "ncd".data t = t ∧
    tokF "share".data true "share".data t = t ∧
    tokF "order".data true "order".data t = t ∧
    tokF "runit".data true "unit".data t = t := by
  have h1 : t ≠ "ltd".data := fun he => hbf (by rw [he]; decide)
  have h2 : t ≠ "limited".data := fun he => hbf (by rw [he]; decide)
  have h3 : t ≠ "crores".data := fun he => hbf (by rw [he]; decide)
  have h4 : t ≠ "ncds".data := fun he => hbf (by rw [he]; decide)
  have h5 : t ≠ "shares".data := fun he => hbf (by rw [he]; decide)
  have h6 : t ≠ "orders".data := fun he => hbf (by rw [he]; decide)
  have h7 : t ≠ "runit".data := fun he => hbf (by rw [he]; decide)
  have h8 : t ≠ "runits".data := fun he => hbf (by rw [he]; decide)
  refine ⟨?_, ?_, ?_, ?_, ?_, ?_, ?_⟩
  · unfold tokF
    rw [if_neg]
    rintro (he | ⟨hf, _⟩)
    · exact h1 he
    · cases hf
  · unfold tokF
    rw [if_neg]
    rintro (he | ⟨hf, _⟩)
    · exact h2 he
    · cases hf
  · by_cases hc : t = "crore".data
    · unfold tokF
      rw [if_pos (Or.inl hc), hc]
    · unfold tokF
      rw [if_neg]
      rintro (he | ⟨_, he⟩)
      · exact hc he
      · exact h3 (by rw [he]; decide)
  · by_cases hc : t = "ncd".data
    · unfold tokF
      rw [if_pos (Or.inl hc), hc]
    · unfold tokF
      rw [if_neg]
      rintro (he | ⟨_, he⟩)
      · exact hc he
      · exact h4 (by rw [he]; decide)
  · by_cases hc : t = "share".data
    · unfold tokF
      rw [if_pos (Or.inl hc), hc]
    · unfold tokF
      rw [if_neg]
      rintro (he | ⟨_, he⟩)
      · exact hc he
      · exact h5 (by rw [he]; decide)
  · by_cases hc : t = "order".data
    · unfold tokF
      rw [if_pos (Or.inl hc), hc]
    · unfold tokF
      rw [if_neg]
      rintro (he | ⟨_, he⟩)
      · exact hc he
      · exact h6 (by rw [he]; decide)
  · unfold tokF
    rw [if_neg]
    rintro (he | ⟨_, he⟩)
    · exact h7 he
    · exact h8 (by rw [he]; decide)

theorem chainTokF_badFree (u : List Char) :
    tokF "runit".data true "unit".data
      (tokF "order".data true "order".data
        (tokF "share".data true "share".data
          (tokF "ncd".data true "ncd".data
            (tokF "crore".data true "crore".data
              (tokF "limited".data false []
                (tokF "ltd".data false [] u)))))) ∉ changers := by
  rcases tokF_cases "ltd".data false [] u with e1 | ⟨e1, n1⟩ <;> rw [e1]
  · decide
  rcases tokF_cases "limited".data false [] u with e2 | ⟨e2, n2⟩ <;> rw [e2]
  · decide
  rcases tokF_cases "crore".data true "crore".data u with e3 | ⟨e3, n3⟩ <;>
    rw [e3]
  · decide
  rcases tokF_cases "ncd".data true "ncd".data u with e4 | ⟨e4, n4⟩ <;> rw [e4]
  · decide
  rcases tokF_cases "share".data true "share".data u with e5 | ⟨e5, n5⟩ <;>
    rw [e5]
  · decide
  rcases tokF_cases "order".data true "order".data u with e6 | ⟨e6, n6⟩ <;>
    rw [e6]
  · decide
  rcases tokF_cases "runit".data true "unit".data u with e7 | ⟨e7, n7⟩ <;>
    rw [e7]
  · decide
  intro hmem
  simp only [changers, List.mem_cons, List.not_mem_nil, or_false] at hmem
  rcases hmem with h | h | h | h | h | h | h | h
  · exact n1 (Or.inl h)
  · exact n2 (Or.inl h)
  · exact n3 (Or.inr ⟨rfl, by rw [h]; decide⟩)
  · exact n4 (Or.inr ⟨rfl, by rw [h]; decide⟩)
  · exact n5 (Or.inr ⟨rfl, by rw [h]; decide⟩)
  · exact n6 (Or.inr ⟨rfl, by rw [h]; decide⟩)
  · exact n7 (Or.inl h)
  · exact n7 (Or.inr ⟨rfl, by rw [h]; decide⟩)

/-- The output of `canonicalize_for_context` is a space-joined list of inert
tokens: nonempty all-word lowercase tokens that none of the second-pass
stages can rewrite. -/
theorem canon_shape (x : List Char) :
    ∃ T : List (List Char),
      canonicalize_for_context x = joinSpace T ∧ ∀ t ∈ T, inert t := by
  set t0 := stripWs (lowerStr x) with ht0
  set t1 := subPct t0 with ht1
  set t2 := subDashColonCtx t1 with ht2
  set t3 := subColon t2 with ht3
  set t4 := nbspToSpace t3 with ht4
  set tc1 := subCommaDigit t4 with htc1
  set t5 := subCommaDigit tc1 with ht5
  set t6 := mapNonWord t5 with ht6
  set t7 := subTokenWord "ltd".data false [] t6 with ht7
  set t8 := subTokenWord "limited".data false [] t7 with ht8
  set t9 := subTokenWord "crore".data true "crore".data t8 with ht9
  set t10 := subTokenWord "ncd".data true "ncd".data t9 with ht10
  set t11 := subTokenWord "share".data true "share".data t10 with ht11
  set t12 := subTokenWord "order".data true "order".data t11 with ht12
  set t13 := subTokenWord "runit".data true "unit".data t12 with ht13
  have hm0 : ∀ c ∈ t0, lowerChar c = c := by
    intro c hc
    rw [ht0] at hc
    rcases List.mem_map.mp (mem_stripWs hc) with ⟨a, _, rfl⟩
    exact lowerChar_idem a
  have hm1 : ∀ c ∈ t1, lowerChar c = c := by
    intro c hc
    rw [ht1] at hc
    rcases scanSub_chars _ pctMatcher_consumes _ pctMatcher_repl _ _ c hc
      with h | h
    · exact hm0 c h
    · cases h
  have hm2 : ∀ c ∈ t2, lowerChar c = c := by
    intro c hc
    rw [ht2] at hc
    rcases scanSub_chars _ (dashColonMatcher_consumes dashSetCtx [' '])
      _ (dashColonMatcher_repl dashSetCtx [' ']) _ _ c hc with h | h
    · exact hm1 c h
    · rcases List.mem_cons.mp h with rfl | h
      · decide
      · cases h
  have hm3 : ∀ c ∈ t3, lowerChar c = c := by
    intro c hc
    rw [ht3] at hc
    rcases scanSub_chars _ colonMatcher_consumes _ colonMatcher_repl _ _ c hc
      with h | h
    · exact hm2 c h
    · rw [h]
      decide
  have hm4 : ∀ c ∈ t4, lowerChar c = c := by
    intro c hc
    rw [ht4] at hc
    rcases List.mem_map.mp hc with ⟨a, ha, rfl⟩
    by_cases hx : a = '\xa0'
    · rw [if_pos hx]
      decide
    · rw [if_neg hx]
      exact hm3 a ha
  have hmc1 : ∀ c ∈ tc1, lowerChar c = c := by
    intro c hc
    rw [htc1] at hc
    rcases scanSub_chars _ commaMatcher_consumes _ commaMatcher_repl _ _ c hc
      with h | h
    · exact hm4 c h
    · exact (digit_lower_word h).1
  have hm5 : ∀ c ∈ t5, lowerChar c = c := by
    intro c hc
    rw [ht5] at hc
    rcases scanSub_chars _ commaMatcher_consumes _ commaMatcher_repl _ _ c hc
      with h | h
    · exact hmc1 c h
    · exact (digit_lower_word h).1
  have hm6 : ∀ c ∈ t6,
      (isWordChar c = true ∨ isSpaceChar c = true) ∧ lowerChar c = c := by
    intro c hc
    rw [ht6] at hc
    rcases List.mem_map.mp hc with ⟨a, ha, rfl⟩
    by_cases hx : (isWordChar a || isSpaceChar a) = true
    · rw [if_pos hx]
      constructor
      · simpa using hx
      · exact hm5 a ha
    · rw [if_neg hx]
      exact ⟨Or.inr (by decide), by decide⟩
  have hm7 : ∀ c ∈ t7,
      (isWordChar c = true ∨ isSpaceChar c = true) ∧ lowerChar c = c := by
    intro c hc
    rw [ht7] at hc
    rcases scanSub_chars _ (wordMatcher_consumes "ltd".data (by decide) false [])
      _ (wordMatcher_repl "ltd".data false []) _ _ c hc with h | h
    · exact hm6 c h
    · cases h
  have hm8 : ∀ c ∈ t8,
      (isWordChar c = true ∨ isSpaceChar c = true) ∧ lowerChar c = c := by
    intro c hc
    rw [ht8] at hc
    rcases scanSub_chars _
      (wordMatcher_consumes "limited".data (by decide) false [])
      _ (wordMatcher_repl "limited".data false []) _ _ c hc with h | h
    · exact hm7 c h
    · cases h
  have hm9 : ∀ c ∈ t9,
      (isWordChar c = true ∨ isSpaceChar c = true) ∧ lowerChar c = c := by
    intro c hc
    rw [ht9] at hc
    rcases scanSub_chars _
      (wordMatcher_consumes "crore".data (by decide) true "crore".data)
      _ (wordMatcher_repl "crore".data true "crore".data) _ _ c hc with h | h
    · exact hm8 c h
    · exact (by decide : ∀ c ∈ "crore".data,
        (isWordChar c = true ∨ isSpaceChar c = true) ∧ lowerChar c = c) c h
  have hm10 : ∀ c ∈ t10,
      (isWordChar c = true ∨ isSpaceChar c = true) ∧ lowerChar c = c := by
    intro c hc
    rw [ht10] at hc
    rcases scanSub_chars _
      (wordMatcher_consumes "ncd".data (by decide) true "ncd".data)
      _ (wordMatcher_repl "ncd".data true "ncd".data) _ _ c hc with h | h
    · exact hm9 c h
    · exact (by decide : ∀ c ∈ "ncd".data,
        (isWordChar c = true ∨ isSpaceChar c = true) ∧ lowerChar c = c) c h
  have hm11 : ∀ c ∈ t11,
      (isWordChar c = true ∨ isSpaceChar c = true) ∧ lowerChar c = c := by
    intro c hc
    rw [ht11] at hc
    rcases scanSub_chars _
      (wordMatcher_consumes "share".data (by decide) true "share".data)
      _ (wordMatcher_repl "share".data true "share".data) _ _ c hc with h | h
    · exact hm10 c h
    · exact (by decide : ∀ c ∈ "share".data,
        (isWordChar c = true ∨ isSpaceChar c = true) ∧ lowerChar c = c) c h
  have hm12 : ∀ c ∈ t12,
      (isWordChar c = true ∨ isSpaceChar c = true) ∧ lowerChar c = c := by
    intro c hc
    rw [ht12] at hc
    rcases scanSub_chars _
      (wordMatcher_consumes "order".data (by decide) true "order".data)
      _ (wordMatcher_repl "order".data true "order".data) _ _ c hc with h | h
    · exact hm11 c h
    · exact (by decide : ∀ c ∈ "order".data,
        (isWordChar c = true ∨ isSpaceChar c = true) ∧ lowerChar c = c) c h
  have hm13 : ∀ c ∈ t13,
      (isWordChar c = true ∨ isSpaceChar c = true) ∧ lowerChar c = c := by
    intro c hc
    rw [ht13] at hc
    rcases scanSub_chars _
      (wordMatcher_consumes "runit".data (by decide) true "unit".data)
      _ (wordMatcher_repl "runit".data true "unit".data) _ _ c hc with h | h
    · exact hm12 c h
    · exact (by decide : ∀ c ∈ "unit".data,
        (isWordChar c = true ∨ isSpaceChar c = true) ∧ lowerChar c = c) c h
  have hsp7 : splitWs t7 =
      ((splitWs t6).map (tokF "ltd".data false [])).filter
        (fun t => !t.isEmpty) := by
    rw [ht7]
    exact wm_scan_tokens "ltd".data false [] (by decide) (by decide) (by decide)
      t6.length t6 (le_refl _) (fun c hc => (hm6 c hc).1)
  have hsp8 : splitWs t8 =
      ((splitWs t7).map (tokF "limited".data false [])).filter
        (fun t => !t.isEmpty) := by
    rw [ht8]
    exact wm_scan_tokens "limited".data false [] (by decide) (by decide)
      (by decide) t7.length t7 (le_refl _) (fun c hc => (hm7 c hc).1)
  have hsp9 : splitWs t9 =
      ((splitWs t8).map (tokF "crore".data true "crore".data)).filter
        (fun t => !t.isEmpty) := by
    rw [ht9]
    exact wm_scan_tokens "crore".data true "crore".data (by decide) (by decide)
      (by decide) t8.length t8 (le_refl _) (fun c hc => (hm8 c hc).1)
  have hsp10 : splitWs t10 =
      ((splitWs t9).map (tokF "ncd".data true "ncd".data)).filter
        (fun t => !t.isEmpty) := by
    rw [ht10]
    exact wm_scan_tokens "ncd".data true "ncd".data (by decide) (by decide)
      (by decide) t9.length t9 (le_refl _) (fun c hc => (hm9 c hc).1)
  have hsp11 : splitWs t11 =
      ((splitWs t10).map (tokF "share".data true "share".data)).filter
        (fun t => !t.isEmpty) := by
    rw [ht11]
    exact wm_scan_tokens "share".data true "share".data (by decide) (by decide)
      (by decide) t10.length t10 (le_refl _) (fun c hc => (hm10 c hc).1)
  have hsp12 : splitWs t12 =
      ((splitWs t11).map (tokF "order".data true "order".data)).filter
        (fun t => !t.isEmpty) := by
    rw [ht12]
    exact wm_scan_tokens "order".data true "order".data (by decide) (by decide)
      (by decide) t11.length t11 (le_refl _) (fun c hc => (hm11 c hc).1)
  have hsp13 : splitWs t13 =
      ((splitWs t12).map (tokF "runit".data true "unit".data)).filter
        (fun t => !t.isEmpty) := by
    rw [ht13]
    exact wm_scan_tokens "runit".data true "unit".data (by decide) (by decide)
      (by decide) t12.length t12 (le_refl _) (fun c hc => (hm12 c hc).1)
  have hbad : ∀ u ∈ splitWs t13, u ∉ changers := by
    intro u hu
    rw [hsp13] at hu
    rcases List.mem_map.mp (List.mem_of_mem_filter hu) with ⟨u12, hu12, rfl⟩
    rw [hsp12] at hu12
    rcases List.mem_map.mp (List.mem_of_mem_filter hu12) with ⟨u11, hu11, rfl⟩
    rw [hsp11] at hu11
    rcases List.mem_map.mp (List.mem_of_mem_filter hu11) with ⟨u10, hu10, rfl⟩
    rw [hsp10] at hu10
    rcases List.mem_map.mp (List.mem_of_mem_filter hu10) with ⟨u9, hu9, rfl⟩
    rw [hsp9] at hu9
    rcases List.mem_map.mp (List.mem_of_mem_filter hu9) with ⟨u8, hu8, rfl⟩
    rw [hsp8] at hu8
    rcases List.mem_map.mp (List.mem_of_mem_filter hu8) with ⟨u7, hu7, rfl⟩
    rw [hsp7] at hu7
    rcases List.mem_map.mp (List.mem_of_mem_filter hu7) with ⟨u6, _, rfl⟩
    exact chainTokF_badFree u6
  have htok13 := splitWs_sound t13.length t13 (le_refl _)
  have hT : ∀ t ∈ (splitWs t13).map canonWord, inert t := by
    intro t ht
    rcases List.mem_map.mp ht with ⟨u, hu, rfl⟩
    obtain ⟨hu1, hu2⟩ := htok13 u hu
    have huw : ∀ c ∈ u, isWordChar c = true ∧ lowerChar c = c := by
      intro c hc
      obtain ⟨hcs, hcm⟩ := hu2 c hc
      obtain ⟨hw, hl⟩ := hm13 c hcm
      rcases hw with h | h
      · exact ⟨h, hl⟩
      · rw [h] at hcs
        cases hcs
    have hubf := hbad u hu
    rcases canonWord_cases u with hcw | hcw
    · rw [hcw]
      exact ⟨hubf, hcw, hu1, huw⟩
    · obtain ⟨hv1, hv2, hv3, hv4⟩ := canonValues_facts _ hcw
      exact ⟨hv2, hv1, hv3, fun c hc => ⟨(hv4 c hc).1, (hv4 c hc).2.1⟩⟩
  refine ⟨(splitWs t13).map canonWord, ?_, hT⟩
  have h14 : tidy (joinSpace ((splitWs t13).map canonWord)) := by
    apply tidy_joinSpace
    intro t ht
    have h := hT t ht
    exact ⟨h.2.2.1, fun c hc => space_of_not_word (h.2.2.2 c hc).1⟩
  have hceq : canonicalize_for_context x =
      stripWs (collapseWs (joinSpace ((splitWs t13).map canonWord))) := by
    rw [ht13, ht12, ht11, ht10, ht9, ht8, ht7, ht6, ht5, htc1, ht4, ht3, ht2,
      ht1, ht0]
    rfl
  rw [hceq,
    collapseWs_id_of_tidyMid _ _ (le_refl _) (tidy_tidyMid h14),
    stripWs_id_of_tidy h14]

theorem mem_joinSpace :
    ∀ (T : List (List Char)) (c : Char), c ∈ joinSpace T →
      c = ' ' ∨ ∃ t ∈ T, c ∈ t := by
  intro T
  induction T with
  | nil => intro c hc; cases hc
  | cons t ts ih =>
    intro c hc
    match ts with
    | [] => exact Or.inr ⟨t, List.mem_cons_self _ _, hc⟩
    | t2 :: ts' =>
      have hc2 : c ∈ t ++ ' ' :: joinSpace (t2 :: ts') := hc
      rcases List.mem_append.mp hc2 with h | h
      · exact Or.inr ⟨t, List.mem_cons_self _ _, h⟩
      · rcases List.mem_cons.mp h with rfl | h
        · exact Or.inl rfl
        · rcases ih c h with h | ⟨t', ht', hct⟩
          · exact Or.inl h
          · exact Or.inr ⟨t', List.mem_cons_of_mem _ ht', hct⟩

theorem map_id_of_fixed {α : Type} {f : α → α} :
    ∀ (l : List α), (∀ c ∈ l, f c = c) → l.map f = l := by
  intro l
  induction l with
  | nil => intro _; rfl
  | cons a l ih =>
    intro h
    rw [List.map_cons, h a (List.mem_cons_self _ _),
      ih (fun c hc => h c (List.mem_cons_of_mem _ hc))]

/-- The second pass of `canonicalize_for_context` is the identity on a
space-joined list of inert tokens. -/
theorem canon_join_inert (T : List (List Char)) (hT : ∀ t ∈ T, inert t) :
    canonicalize_for_context (joinSpace T) = joinSpace T := by
  have hy : ∀ c ∈ joinSpace T,
      (isWordChar c = true ∨ c = ' ') ∧ lowerChar c = c := by
    intro c hc
    rcases mem_joinSpace T c hc with rfl | ⟨t, ht, hct⟩
    · exact ⟨Or.inr rfl, by decide⟩
    · have h := (hT t ht).2.2.2 c hct
      exact ⟨Or.inl h.1, h.2⟩
  have hnot : ∀ d : Char, isWordChar d = false → d ≠ ' ' →
      d ∉ joinSpace T := by
    intro d hd1 hd2 hdm
    rcases (hy d hdm).1 with h | h
    · rw [h] at hd1
      cases hd1
    · exact hd2 h
  have htidy : tidy (joinSpace T) := tidy_joinSpace T (fun t ht =>
    ⟨(hT t ht).2.2.1, fun c hc => space_of_not_word ((hT t ht).2.2.2 c hc).1⟩)
  have hlow : lowerStr (joinSpace T) = joinSpace T :=
    map_id_of_fixed _ (fun c hc => (hy c hc).2)
  have hstr : stripWs (joinSpace T) = joinSpace T := stripWs_id_of_tidy htidy
  have hpct : subPct (joinSpace T) = joinSpace T := by
    apply scanSub_id
    intro p l' hl'
    apply pctMatcher_nofire
    intro hmem
    exact hnot '(' (by decide) (by decide) (hl'.mem hmem)
  have hdashes : ∀ c ∈ dashSetCtx, isWordChar c = false ∧ ¬(c = ' ') := by
    decide
  have hdash : subDashColonCtx (joinSpace T) = joinSpace T := by
    apply scanSub_id
    intro p l' hl'
    apply dashColonMatcher_nofire
    intro c hcl hcd
    exact hnot c (hdashes c hcd).1 (hdashes c hcd).2 (hl'.mem hcl)
  have hcol : subColon (joinSpace T) = joinSpace T := by
    apply scanSub_id
    intro p l' hl'
    apply colonMatcher_nofire
    intro hmem
    exact hnot ':' (by decide) (by decide) (hl'.mem hmem)
  have hnbsp : nbspToSpace (joinSpace T) = joinSpace T := by
    apply map_id_of_fixed
    intro c hc
    rw [if_neg]
    intro he
    exact hnot '\xa0' (by decide) (by decide) (he ▸ hc)
  have hcom : subCommaDigit (joinSpace T) = joinSpace T := by
    apply scanSub_id
    intro p l' hl'
    apply commaMatcher_nofire
    intro hmem
    exact hnot ',' (by decide) (by decide) (hl'.mem hmem)
  have hmnw : mapNonWord (joinSpace T) = joinSpace T := by
    apply map_id_of_fixed
    intro c hc
    rcases (hy c hc).1 with h | h
    · rw [if_pos (by simp [h])]
    · rw [if_pos (by rw [h]; decide)]
  have hw7 : subTokenWord "ltd".data false [] (joinSpace T) = joinSpace T := by
    apply wm_scan_join_id _ (by decide) _ _ (by decide)
    intro t ht
    obtain ⟨hbf, _, hne, hch⟩ := hT t ht
    exact ⟨hne, fun c hc => (hch c hc).1, (tokF_fixed_of_badFree t hbf).1⟩
  have hw8 : subTokenWord "limited".data false [] (joinSpace T) =
      joinSpace T := by
    apply wm_scan_join_id _ (by decide) _ _ (by decide)
    intro t ht
    obtain ⟨hbf, _, hne, hch⟩ := hT t ht
    exact ⟨hne, fun c hc => (hch c hc).1, (tokF_fixed_of_badFree t hbf).2.1⟩
  have hw9 : subTokenWord "crore".data true "crore".data (joinSpace T) =
      joinSpace T := by
    apply wm_scan_join_id _ (by decide) _ _ (by decide)
    intro t ht
    obtain ⟨hbf, _, hne, hch⟩ := hT t ht
    exact ⟨hne, fun c hc => (hch c hc).1,
      (tokF_fixed_of_badFree t hbf).2.2.1⟩
  have hw10 : subTokenWord "ncd".data true "ncd".data (joinSpace T) =
      joinSpace T := by
    apply wm_scan_join_id _ (by decide) _ _ (by decide)
    intro t ht
    obtain ⟨hbf, _, hne, hch⟩ := hT t ht
    exact ⟨hne, fun c hc => (hch c hc).1,
      (tokF_fixed_of_badFree t hbf).2.2.2.1⟩
  have hw11 : subTokenWord "share".data true "share".data (joinSpace T) =
      joinSpace T := by
    apply wm_scan_join_id _ (by decide) _ _ (by decide)
    intro t ht
    obtain ⟨hbf, _, hne, hch⟩ := hT t ht
    exact ⟨hne, fun c hc => (hch c hc).1,
      (tokF_fixed_of_badFree t hbf).2.2.2.2.1⟩
  have hw12 : subTokenWord "order".data true "order".data (joinSpace T) =
      joinSpace T := by
    apply wm_scan_join_id _ (by decide) _ _ (by decide)
    intro t ht
    obtain ⟨hbf, _, hne, hch⟩ := hT t ht
    exact ⟨hne, fun c hc => (hch c hc).1,
      (tokF_fixed_of_badFree t hbf).2.2.2.2.2.1⟩
  have hw13 : subTokenWord "runit".data true "unit".data (joinSpace T) =
      joinSpace T := by
    apply wm_scan_join_id _ (by decide) _ _ (by decide)
    intro t ht
    obtain ⟨hbf, _, hne, hch⟩ := hT t ht
    exact ⟨hne, fun c hc => (hch c hc).1,
      (tokF_fixed_of_badFree t hbf).2.2.2.2.2.2⟩
  have hsplit : splitWs (joinSpace T) = T := splitWs_joinSpace T (fun t ht =>
    ⟨(hT t ht).2.2.1, fun c hc => space_of_not_word ((hT t ht).2.2.2 c hc).1⟩)
  have hmapc : T.map canonWord = T :=
    map_id_of_fixed T (fun t ht => (hT t ht).2.1)
  have hcoll : collapseWs (joinSpace T) = joinSpace T :=
    collapseWs_id_of_tidyMid _ _ (le_refl _) (tidy_tidyMid htidy)
  show stripWs (collapseWs (joinSpace ((splitWs
    (subTokenWord "runit".data true "unit".data
    (subTokenWord "order".data true "order".data
    (subTokenWord "share".data true "share".data
    (subTokenWord "ncd".data true "ncd".data
    (subTokenWord "crore".data true "crore".data
    (subTokenWord "limited".data false []
    (subTokenWord "ltd".data false []
    (mapNonWord (subCommaDigit (subCommaDigit (nbspToSpace (subColon
    (subDashColonCtx (subPct (stripWs (lowerStr
      (joinSpace T)))))))))))))))))).map canonWord))) = joinSpace T
  rw [hlow, hstr, hpct, hdash, hcol, hnbsp, hcom, hcom, hmnw, hw7, hw8, hw9,
    hw10, hw11, hw12, hw13, hsplit, hmapc, hcoll, hstr]

/-- Both passes agree: `canonicalize_for_context` is idempotent. -/
theorem canonicalize_for_context_idem (x : List Char) :
    canonicalize_for_context (canonicalize_for_context x) =
      canonicalize_for_context x := by
  obtain ⟨T, hTy, hT⟩ := canon_shape x
  rw [hTy]
  exact canon_join_inert T hT

/-- Without `(` and without the dash class, both rewrite stages of the
conservative normalization are inert, on the input and on its own output,
so the normalization is idempotent there. -/
theorem normalize_dedup_idem_cond (x : List Char)
    (hx : ∀ c ∈ x, c ≠ '(' ∧ c ∉ dashSetCons) :
    normalize_headline_for_exact_dedup
      (normalize_headline_for_exact_dedup x) =
      normalize_headline_for_exact_dedup x := by
  have hpct1 : subPct x = x := by
    apply scanSub_id
    intro p l' hl'
    apply pctMatcher_nofire
    intro hmem
    exact (hx '(' (hl'.mem hmem)).1 rfl
  have hdash1 : subDashColonCons x = x := by
    apply scanSub_id
    intro p l' hl'
    apply dashColonMatcher_nofire
    intro c hcl hcd
    exact (hx c (hl'.mem hcl)).2 hcd
  have hytidy : tidy (lowerStr (stripWs (collapseWs x))) :=
    tidy_lowerStr (tidy_strip_collapse x)
  have hmem_y : ∀ c ∈ lowerStr (stripWs (collapseWs x)),
      ∃ a, lowerChar a = c ∧ (a ∈ x ∨ a = ' ') := by
    intro c hc
    rcases List.mem_map.mp hc with ⟨a, ha, rfl⟩
    exact ⟨a, rfl, mem_collapseWs _ x (le_refl _) a (mem_stripWs ha)⟩
  have hdashrange : ∀ c ∈ dashSetCons, c.toNat < 97 ∨ 122 < c.toNat := by
    decide
  have hpct2 : subPct (lowerStr (stripWs (collapseWs x))) =
      lowerStr (stripWs (collapseWs x)) := by
    apply scanSub_id
    intro p l' hl'
    apply pctMatcher_nofire
    intro hmem
    obtain ⟨a, hla, hax⟩ := hmem_y '(' (hl'.mem hmem)
    have ha2 : a = '(' := lowerChar_eq_of_range (by decide) hla
    subst ha2
    rcases hax with h | h
    · exact (hx _ h).1 rfl
    · cases h
  have hdash2 : subDashColonCons (lowerStr (stripWs (collapseWs x))) =
      lowerStr (stripWs (collapseWs x)) := by
    apply scanSub_id
    intro p l' hl'
    apply dashColonMatcher_nofire
    intro c hcl hcd
    obtain ⟨a, hla, hax⟩ := hmem_y c (hl'.mem hcl)
    have ha2 : a = c := lowerChar_eq_of_range (hdashrange c hcd) hla
    subst ha2
    rcases hax with h | h
    · exact (hx _ h).2 hcd
    · rw [h] at hcd
      exact absurd hcd (by decide)
  have hcoll2 : collapseWs (lowerStr (stripWs (collapseWs x))) =
      lowerStr (stripWs (collapseWs x)) :=
    collapseWs_id_of_tidyMid _ _ (le_refl _) (tidy_tidyMid hytidy)
  have hstr2 : stripWs (lowerStr (stripWs (collapseWs x))) =
      lowerStr (stripWs (collapseWs x)) := stripWs_id_of_tidy hytidy
  have hlow2 : lowerStr (lowerStr (stripWs (collapseWs x))) =
      lowerStr (stripWs (collapseWs x)) := by
    apply map_id_of_fixed
    intro c hc
    rcases List.mem_map.mp hc with ⟨a, _, rfl⟩
    exact lowerChar_idem a
  show lowerStr (stripWs (collapseWs (subDashColonCons (subPct
    (lowerStr (stripWs (collapseWs (subDashColonCons (subPct x))))))))) =
    lowerStr (stripWs (collapseWs (subDashColonCons (subPct x))))
  rw [hpct1, hdash1, hpct2, hdash2, hcoll2, hstr2, hlow2]

/-- C3 counterexample: the conservative normalization is not idempotent.
Its dash-colon rewrite can create a fresh `-:` pattern
(`--:` normalizes to `-:`, which normalizes further to `:`), and its
percentage-stripping rewrite can create a fresh `(+d.d%)` pattern
(`((+1.2%)+1.2%)` normalizes to `(+1.2%)`, which normalizes further
to the empty string). -/
theorem normalize_dedup_not_idempotent :
    normalize_headline_for_exact_dedup (normalize_headline_for_exact_dedup
      "--:".data) ≠ normalize_headline_for_exact_dedup "--:".data ∧
    normalize_headline_for_exact_dedup (normalize_headline_for_exact_dedup
      "((+1.2%)+1.2%)".data) ≠
      normalize_headline_for_exact_dedup "((+1.2%)+1.2%)".data := by
  decide

/-- C3 (amended): the aggressive canonicalization
`canonicalize_for_context` is idempotent on every input; the conservative
normalization `normalize_headline_for_exact_dedup` is idempotent on every
input that contains no `(` and none of the five dash-class characters
of its dash-colon rewrite (full idempotence fails for it, see the
counterexample). -/
theorem canonicalizations_idempotent_amended :
    (∀ x : List Char, canonicalize_for_context (canonicalize_for_context x) =
      canonicalize_for_context x) ∧
    (∀ x : List Char, (∀ c ∈ x, c ≠ '(' ∧ c ∉ dashSetCons) →
      normalize_headline_for_exact_dedup
        (normalize_headline_for_exact_dedup x) =
        normalize_headline_for_exact_dedup x) :=
  ⟨canonicalize_for_context_idem, normalize_dedup_idem_cond⟩

theorem canonicalizations_idempotent_amended_w :
    canonicalize_for_context (canonicalize_for_context
      "Reliance Ltd wins order (+1.2%)".data) =
      canonicalize_for_context "Reliance Ltd wins order (+1.2%)".data ∧
    normalize_headline_for_exact_dedup (normalize_headline_for_exact_dedup
      "TCS Q4: profit rises 12 pct".data) =
      normalize_headline_for_exact_dedup "TCS Q4: profit rises 12 pct".data :=
  ⟨canonicalizations_idempotent_amended.1 _,
    canonicalizations_idempotent_amended.2 _ (by decide)⟩

end NewsMonitor
